import Mathlib

/-!
# Constraint reparametrization engine: verification

A shallow embedding of the constraint reparametrization engine of the
estimagic repository.  The engine turns a declarative list of constraints
over a named parameter vector into a bijective mapping between an
"external" (constrained) parameter vector and an "internal" unconstrained
vector.  The repository ships the engine's documentation and example
notebooks; the engine itself is modelled here from the specification,
definition by definition, and the stated properties are proved or refuted
against that model.

Real numbers stand for the floating-point values of the implementation;
"within floating-point tolerance" statements become exact equalities
over `ℝ`.
-/

namespace Estimagic

open Matrix

/-! ### Triangular packing helpers

The covariance constraint works on the lower triangle of an `n × n`
matrix flattened in row-major (C) order.  `tri n` is the length of that
flattened triangle, `idx i j` the packed position of entry `(i, j)` with
`j ≤ i`, and `rowcol` the inverse walk recovering `(row, column)` from a
packed position. -/

/-- Number of entries in the lower triangle (diagonal included) of an
`n × n` matrix. -/
def tri : ℕ → ℕ
  | 0 => 0
  | n + 1 => tri n + (n + 1)

theorem tri_eq (n : ℕ) : tri n = n * (n + 1) / 2 := by
  induction n with
  | zero => rfl
  | succ n ih =>
    rw [tri, ih]
    have h : (n + 1) * (n + 1 + 1) = n * (n + 1) + 2 * (n + 1) := by ring
    omega

theorem tri_strictMono : StrictMono tri := by
  apply strictMono_nat_of_lt_succ
  intro n
  rw [tri]
  omega

/-- Row-major packed position of lower-triangle entry `(i, j)`, `j ≤ i`. -/
def idx (i j : ℕ) : ℕ := tri i + j

theorem idx_lt_tri {i j n : ℕ} (hj : j ≤ i) (hi : i < n) : idx i j < tri n := by
  have h1 : idx i j < tri (i + 1) := by
    rw [idx, tri]; omega
  exact lt_of_lt_of_le h1 (tri_strictMono.monotone hi)

/-- Row-major walk over the lower triangle: `rowcol k` is the
`(row, column)` pair sitting at packed position `k`. -/
def rowcol : ℕ → ℕ × ℕ
  | 0 => (0, 0)
  | k + 1 =>
    let p := rowcol k
    if p.2 < p.1 then (p.1, p.2 + 1) else (p.1 + 1, 0)

theorem rowcol_tri_add : ∀ i, ∀ j, j ≤ i → rowcol (tri i + j) = (i, j) := by
  intro i
  induction i with
  | zero =>
    intro j hj
    interval_cases j
    rfl
  | succ i ih =>
    have base : rowcol (tri (i + 1)) = (i + 1, 0) := by
      have h1 : tri (i + 1) = (tri i + i) + 1 := by rw [tri]; omega
      rw [h1, rowcol, ih i le_rfl]
      simp
    intro j
    induction j with
    | zero => intro _; simpa using base
    | succ j ihj =>
      intro hj
      have h2 : tri (i + 1) + (j + 1) = (tri (i + 1) + j) + 1 := by omega
      rw [h2, rowcol, ihj (by omega)]
      simp [Nat.lt_of_succ_le hj]

theorem rowcol_inv : ∀ k, (rowcol k).2 ≤ (rowcol k).1 ∧
    tri (rowcol k).1 + (rowcol k).2 = k := by
  intro k
  induction k with
  | zero => exact ⟨le_rfl, rfl⟩
  | succ k ih =>
    obtain ⟨hle, hsum⟩ := ih
    rw [rowcol]
    by_cases h : (rowcol k).2 < (rowcol k).1
    · simp only [if_pos h]
      exact ⟨h, by omega⟩
    · have heq : (rowcol k).2 = (rowcol k).1 := le_antisymm hle (not_lt.mp h)
      simp only [if_neg h]
      refine ⟨Nat.zero_le _, ?_⟩
      rw [tri]
      omega

theorem rowcol_row_lt {k n : ℕ} (h : k < tri n) : (rowcol k).1 < n := by
  have h1 := rowcol_inv k
  have h2 : tri (rowcol k).1 ≤ k := by omega
  by_contra hcon
  have h3 : tri n ≤ tri (rowcol k).1 := tri_strictMono.monotone (not_lt.mp hcon)
  omega

theorem rowcol_idx {i j : ℕ} (h : j ≤ i) : rowcol (idx i j) = (i, j) :=
  rowcol_tri_add i j h

/-- The symmetric `n × n` matrix whose packed row-major lower triangle is
the vector `x`; out-of-range reads default to `0`. -/
def unpackSym (n : ℕ) (x : List ℝ) : Matrix (Fin n) (Fin n) ℝ :=
  Matrix.of fun i j =>
    if (j : ℕ) ≤ (i : ℕ) then x.getD (idx i j) 0 else x.getD (idx j i) 0

/-- Read a matrix entry by bare naturals; out-of-range reads give `0`. -/
def entryAt {n : ℕ} (M : Matrix (Fin n) (Fin n) ℝ) (i j : ℕ) : ℝ :=
  if h : i < n ∧ j < n then M ⟨i, h.1⟩ ⟨j, h.2⟩ else 0

/-- Flatten the lower triangle of an `n × n` matrix in row-major order. -/
def packLower (n : ℕ) (M : Matrix (Fin n) (Fin n) ℝ) : List ℝ :=
  (List.range (tri n)).map fun k => entryAt M (rowcol k).1 (rowcol k).2

theorem length_packLower (n : ℕ) (M : Matrix (Fin n) (Fin n) ℝ) :
    (packLower n M).length = tri n := by
  simp [packLower]

theorem getD_map_range {f : ℕ → ℝ} {m k : ℕ} (h : k < m) :
    (((List.range m).map f).getD k 0) = f k := by
  rw [List.getD_eq_getElem?_getD]
  simp [List.getElem?_map, List.getElem?_range h]

theorem packLower_getD {n i j : ℕ} (M : Matrix (Fin n) (Fin n) ℝ)
    (hj : j ≤ i) (hi : i < n) :
    (packLower n M).getD (idx i j) 0 = M ⟨i, hi⟩ ⟨j, lt_of_le_of_lt hj hi⟩ := by
  rw [packLower, getD_map_range (idx_lt_tri hj hi), rowcol_idx hj]
  simp [entryAt, hi, lt_of_le_of_lt hj hi]

theorem unpackSym_packLower {n : ℕ} (M : Matrix (Fin n) (Fin n) ℝ)
    (hsym : Mᵀ = M) :
    unpackSym n (packLower n M) = M := by
  ext i j
  by_cases h : (j : ℕ) ≤ (i : ℕ)
  · rw [unpackSym]
    simp only [Matrix.of_apply, if_pos h]
    rw [packLower_getD M h i.isLt]
  · have h' : (i : ℕ) ≤ (j : ℕ) := le_of_not_le h
    rw [unpackSym]
    simp only [Matrix.of_apply, if_neg h]
    rw [packLower_getD M h' j.isLt]
    have := congrFun (congrFun hsym j) i
    simpa [Matrix.transpose_apply] using this.symm

theorem packLower_unpackSym {n : ℕ} (x : List ℝ) (hlen : x.length = tri n) :
    packLower n (unpackSym n x) = x := by
  apply List.ext_getElem
  · rw [length_packLower, hlen]
  · intro k h1 h2
    rw [length_packLower] at h1
    have hrowlt : (rowcol k).1 < n := rowcol_row_lt h1
    have hcollt : (rowcol k).2 < n := lt_of_le_of_lt (rowcol_inv k).1 hrowlt
    have hL : (packLower n (unpackSym n x)).getD k 0 = x.getD k 0 := by
      rw [packLower, getD_map_range h1]
      rw [entryAt, dif_pos ⟨hrowlt, hcollt⟩, unpackSym]
      simp only [Matrix.of_apply, if_pos (rowcol_inv k).1]
      have hk : idx (rowcol k).1 (rowcol k).2 = k := (rowcol_inv k).2
      rw [hk]
    rw [← List.getD_eq_getElem _ 0, ← List.getD_eq_getElem _ 0]
    exact hL

/-! ### Data model

Modelled from the spec (§3): the engine's code is not part of the source
tree (only its documentation notebooks are), so the data model follows the
specification's words. -/

/-- A parameter: a composite identity (a first-level label and a number)
plus a scalar value. -/
structure Param where
  name : String
  num : ℕ
  value : ℝ

instance : Inhabited Param := ⟨⟨"", 0, 0⟩⟩

/-- An ordered sequence of parameters; order defines array positions. -/
abbrev ParamVec := List Param

/-- The eight constraint families. -/
inductive CType
  | covariance
  | sdcorr
  | sum
  | probability
  | increasing
  | equality
  | pairwise_equality
  | fixed
deriving DecidableEq

/-- Modelled from the spec (§3, §6): a raw constraint declaration: a type
tag, one selector (`loc`), an optional second selector for the pairwise
family, an optional target value and an optional integer id. -/
structure RealDecl where
  ctype : CType
  loc : String
  loc2 : Option String := none
  value : Option ℝ := none
  cid : Option ℤ := none

/-- Modelled from the spec (§3): a declaration is either a real constraint
declaration or a kill pseudo-declaration carrying only an id reference. -/
inductive Decl
  | real (d : RealDecl)
  | kill (k : ℤ)

/-- Modelled from the spec (§3): the resolved form of a declaration: a
concrete ordered list of positions (two parallel lists for the pairwise
family), the type tag, the sum target and the captured fixed targets. -/
structure Group where
  ctype : CType
  positions : List ℕ
  positions2 : List ℕ
  target : ℝ
  fixedValues : List ℝ

/-- Modelled from the spec (§7): the error taxonomy. -/
inductive Err
  | configurationError
  | emptySelectionError
  | overlappingConstraintError (ids : List (String × ℕ))
  | shapeMismatchError
  | infeasibleStartError
deriving DecidableEq

/-! ### Constraint declaration processing (spec §4.2) -/

/-- Modelled from the spec: ids referenced by kill pseudo-declarations. -/
def killIds (ds : List Decl) : List ℤ :=
  ds.filterMap fun d =>
    match d with
    | .kill k => some k
    | .real _ => none

/-- Whether a real declaration's id matches one of the kill ids. -/
def killed (ks : List ℤ) (d : RealDecl) : Bool :=
  match d.cid with
  | some i => ks.contains i
  | none => false

/-- Modelled from the spec: remove every real declaration whose id matches
a kill id; a kill with no matching id has no effect. -/
def effective (ds : List Decl) : List RealDecl :=
  ds.filterMap fun d =>
    match d with
    | .real r => if killed (killIds ds) r then none else some r
    | .kill _ => none

/-- Modelled from the spec: resolve a `loc` selector against the Parameter
Vector into the ordered list of matching positions, preserving Parameter
Vector order. -/
def resolve (loc : String) (vec : ParamVec) : List ℕ :=
  (List.range vec.length).filter fun p => (vec.getD p default).name == loc

/-- Value stored at a position of the Parameter Vector. -/
def valueAt (vec : ParamVec) (p : ℕ) : ℝ := (vec.getD p default).value

/-- Identity stored at a position of the Parameter Vector. -/
def identityAt (vec : ParamVec) (p : ℕ) : String × ℕ :=
  ((vec.getD p default).name, (vec.getD p default).num)

/-- Modelled from the spec (§4.2, §6): resolve one declaration into a
constraint group.  An empty selection fails with `emptySelectionError`;
`sum` requires an explicit target value (the repository documentation
states the value is mandatory for sum constraints); `fixed` captures its
target from the starting Parameter Vector when the value is omitted;
`pairwise_equality` needs a second selector resolving to the same
length. -/
def resolveDecl (vec : ParamVec) (d : RealDecl) : Except Err Group :=
  let ps := resolve d.loc vec
  if ps.isEmpty then .error .emptySelectionError
  else
    match d.ctype with
    | .sum =>
      match d.value with
      | none => .error .configurationError
      | some t => .ok ⟨.sum, ps, [], t, []⟩
    | .fixed =>
      match d.value with
      | some v => .ok ⟨.fixed, ps, [], 0, ps.map fun _ => v⟩
      | none => .ok ⟨.fixed, ps, [], 0, ps.map (valueAt vec)⟩
    | .pairwise_equality =>
      match d.loc2 with
      | none => .error .configurationError
      | some l2 =>
        let ps2 := resolve l2 vec
        if ps2.isEmpty then .error .emptySelectionError
        else if ps2.length = ps.length then .ok ⟨.pairwise_equality, ps, ps2, 0, []⟩
        else .error .shapeMismatchError
    | t => .ok ⟨t, ps, [], 0, []⟩

/-- Modelled from the spec (§4.2): expand kills, then resolve each
remaining declaration in order. -/
def processConstraints (ds : List Decl) (vec : ParamVec) : Except Err (List Group) :=
  (effective ds).mapM (resolveDecl vec)

/-! ### Conflict resolution (spec §4.3) -/

/-- All positions claimed by a group. -/
def allPositions (g : Group) : List ℕ := g.positions ++ g.positions2

/-- Modelled from the spec (§4.3): first list of positions shared between
two resolved groups, if any. -/
def findOverlap : List Group → Option (List ℕ)
  | [] => none
  | g :: gs =>
    let shared := (allPositions g).filter fun p => gs.any fun h => (allPositions h).contains p
    if shared.isEmpty then findOverlap gs else some shared

/-- Modelled from the spec (§4.3): verify pairwise position-set
disjointness, naming the offending identities on failure. -/
def checkOverlaps (vec : ParamVec) (gs : List Group) : Except Err (List Group) :=
  match findOverlap gs with
  | some ps => .error (.overlappingConstraintError (ps.map (identityAt vec)))
  | none => .ok gs

/-! ### Cholesky factorization

The engine calls the linear-algebra library's Cholesky routine on the
starting covariance block.  The routine is modelled by its contract: for a
positive definite matrix it returns a lower-triangular factor with
positive diagonal whose product with its transpose is the input.
Existence is derived from Mathlib's LDL decomposition. -/

set_option maxHeartbeats 1000000 in
/-- **Cholesky existence**: every positive definite real matrix has a
lower-triangular factor with positive diagonal entries reproducing it as
`L * Lᵀ`.  Derived from Mathlib's LDL decomposition, with the sign of each
diagonal entry normalized to be positive. -/
theorem exists_cholesky {n : ℕ} {S : Matrix (Fin n) (Fin n) ℝ} (hS : S.PosDef) :
    ∃ L : Matrix (Fin n) (Fin n) ℝ,
      (∀ i j : Fin n, i < j → L i j = 0) ∧ (∀ i, 0 < L i i) ∧ L * Lᵀ = S := by
  classical
  have hconj := @LDL.lower_conj_diag ℝ _ (Fin n) _
    (inferInstance : WellFoundedLT (Fin n)) _ S _ hS
  set A := @LDL.lowerInv ℝ _ (Fin n) _
    (inferInstance : WellFoundedLT (Fin n)) _ S _ hS with hA
  set L0 := @LDL.lower ℝ _ (Fin n) _
    (inferInstance : WellFoundedLT (Fin n)) _ S _ hS with hL0
  haveI hinv := @LDL.invertibleLowerInv ℝ _ (Fin n) _
    (inferInstance : WellFoundedLT (Fin n)) _ S _ hS
  have hAtri : ∀ i j : Fin n, i < j → A i j = 0 := fun i j hij =>
    @LDL.lowerInv_triangular ℝ _ (Fin n) _
      (inferInstance : WellFoundedLT (Fin n)) _ S _ hS i j hij
  have hmulLDL := @Matrix.mul_inv_of_invertible (Fin n) ℝ _
    (fun a b => instDecidableEq_mathlib a b) EuclideanDomain.toCommRing A hinv
  have h2 : L0 = @Inv.inv _
      (@Matrix.inv (Fin n) ℝ (Fin.fintype n) (fun a b => instDecidableEq_mathlib a b)
        EuclideanDomain.toCommRing) A := by
    rw [hL0]; delta LDL.lower; rfl
  -- `A * L0 = 1` with the canonical instances of this file
  have hkey : A * L0 = 1 := by
    ext i j
    have h3 := congrFun (congrFun hmulLDL i) j
    rw [← h2] at h3
    rw [h3]
    by_cases hij : i = j <;> simp [Matrix.one_apply, hij]
  -- L0 is the canonical inverse of A, hence lower triangular
  haveI hinvA : Invertible A := Matrix.invertibleOfRightInverse A L0 hkey
  have hAinv : A⁻¹ = L0 := Matrix.inv_eq_right_inv hkey
  have hAtri' : A.BlockTriangular OrderDual.toDual := fun i j hij =>
    hAtri i j (OrderDual.toDual_lt_toDual.mp hij)
  have hL0tri : L0.BlockTriangular OrderDual.toDual := by
    rw [← hAinv]
    exact Matrix.blockTriangular_inv_of_blockTriangular hAtri'
  -- the determinant of L0 is nonzero
  have hdetL0 : L0.det ≠ 0 := by
    intro h0
    have hd := congrArg Matrix.det hkey
    rw [Matrix.det_mul, Matrix.det_one, h0, mul_zero] at hd
    exact zero_ne_one hd
  -- `L0 * D * L0ᵀ = S` with D the diagonal of the LDL diagonal entries
  set d : Fin n → ℝ := @LDL.diagEntries ℝ _ (Fin n) _
    (inferInstance : WellFoundedLT (Fin n)) _ S _ hS with hd
  set D := @LDL.diag ℝ _ (Fin n) _
    (inferInstance : WellFoundedLT (Fin n)) _ S _ hS with hD
  have hDdiag : D = Matrix.diagonal d := by
    ext i j
    rw [hD]
    delta LDL.diag
    by_cases hij : i = j <;> simp [Matrix.diagonal, hij, hd]
  have hdnn : ∀ i, 0 ≤ d i := by
    intro i
    have h : d i = Matrix.dotProduct (star (star (A i))) (S *ᵥ star (A i)) := rfl
    rw [h]
    exact hS.posSemidef.2 _
  have hconj' : L0 * Matrix.diagonal d * L0ᵀ = S := by
    rw [← hDdiag, ← Matrix.conjTranspose_eq_transpose_of_trivial]
    exact hconj
  -- scale columns by the square roots of d
  set s : Fin n → ℝ := fun i => Real.sqrt (d i) with hs
  set T := L0 * Matrix.diagonal s with hT
  have hTtri : T.BlockTriangular OrderDual.toDual :=
    hL0tri.mul (Matrix.blockTriangular_diagonal s)
  have hss : Matrix.diagonal s * Matrix.diagonal s = Matrix.diagonal d := by
    rw [Matrix.diagonal_mul_diagonal,
      show (fun i => s i * s i) = d from funext fun i => Real.mul_self_sqrt (hdnn i)]
  have hTTt : T * Tᵀ = S := by
    rw [hT, Matrix.transpose_mul, Matrix.diagonal_transpose]
    calc L0 * Matrix.diagonal s * (Matrix.diagonal s * L0ᵀ)
        = L0 * (Matrix.diagonal s * Matrix.diagonal s) * L0ᵀ := by
          simp only [Matrix.mul_assoc]
      _ = L0 * Matrix.diagonal d * L0ᵀ := by rw [hss]
      _ = S := hconj'
  have hdetS : S.det ≠ 0 := ne_of_gt hS.det_pos
  have hdetT : T.det * T.det = S.det := by
    have h := congrArg Matrix.det hTTt
    rwa [Matrix.det_mul, Matrix.det_transpose] at h
  have hTdet : T.det ≠ 0 := fun h0 => hdetS (by rw [← hdetT, h0, zero_mul])
  have hTdiag : ∀ i, T i i ≠ 0 := by
    intro i hzero
    apply hTdet
    rw [Matrix.det_of_lowerTriangular T hTtri]
    exact Finset.prod_eq_zero (Finset.mem_univ i) hzero
  set sgn : Fin n → ℝ := fun i => if T i i < 0 then -1 else 1 with hsgn
  refine ⟨T * Matrix.diagonal sgn, ?_, ?_, ?_⟩
  · intro i j hij
    exact hTtri.mul (Matrix.blockTriangular_diagonal sgn)
      (OrderDual.toDual_lt_toDual.mpr hij)
  · intro i
    rw [Matrix.mul_diagonal]
    by_cases hneg : T i i < 0
    · rw [hsgn]
      simp only [if_pos hneg]
      linarith
    · have hpos : 0 < T i i := lt_of_le_of_ne (not_lt.mp hneg) (Ne.symm (hTdiag i))
      rw [hsgn]
      simp only [if_neg hneg, mul_one]
      exact hpos
  · have hsgnsq : Matrix.diagonal sgn * Matrix.diagonal sgn = 1 := by
      have hone : (fun i => sgn i * sgn i) = fun _ => (1 : ℝ) := by
        funext i
        rw [hsgn]
        by_cases hneg : T i i < 0
        · simp only [if_pos hneg]
          norm_num
        · simp only [if_neg hneg]
          norm_num
      rw [Matrix.diagonal_mul_diagonal, hone, Matrix.diagonal_one]
    calc T * Matrix.diagonal sgn * (T * Matrix.diagonal sgn)ᵀ
        = T * (Matrix.diagonal sgn * Matrix.diagonal sgn) * Tᵀ := by
          rw [Matrix.transpose_mul, Matrix.diagonal_transpose]
          simp only [Matrix.mul_assoc]
      _ = T * Tᵀ := by rw [hsgnsq, Matrix.mul_one]
      _ = S := hTTt

/-- Modelled from the spec (§4.4): the library Cholesky routine, by its
contract: a lower-triangular factor with positive diagonal reproducing the
positive definite input as `L * Lᵀ`. -/
noncomputable def cholFactor {n : ℕ} {S : Matrix (Fin n) (Fin n) ℝ}
    (hS : S.PosDef) : Matrix (Fin n) (Fin n) ℝ :=
  (exists_cholesky hS).choose

theorem cholFactor_lowerTri {n : ℕ} {S : Matrix (Fin n) (Fin n) ℝ} (hS : S.PosDef) :
    ∀ i j : Fin n, i < j → cholFactor hS i j = 0 :=
  (exists_cholesky hS).choose_spec.1

theorem cholFactor_diag_pos {n : ℕ} {S : Matrix (Fin n) (Fin n) ℝ} (hS : S.PosDef) :
    ∀ i, 0 < cholFactor hS i i :=
  (exists_cholesky hS).choose_spec.2.1

theorem cholFactor_mul_transpose {n : ℕ} {S : Matrix (Fin n) (Fin n) ℝ} (hS : S.PosDef) :
    cholFactor hS * (cholFactor hS)ᵀ = S :=
  (exists_cholesky hS).choose_spec.2.2

/-! ### Per-type transforms (spec §4.4)

Each transform operates on the contiguous slice of values belonging to
one group, in the order fixed at resolution time.  All are modelled from
the spec's transform table.  Everything from here on lives in a
`noncomputable section`: exact real arithmetic (`exp`, `log`, `sqrt`,
division) has no executable code in Mathlib, and the positive
definiteness test of the library Cholesky routine is classical. -/

noncomputable section

open scoped Classical

/-- Modelled from the spec: `fixed` — the forward transform discards the
slice; the internal representation is empty. -/
def to_internal_fixed (_x : List ℝ) : List ℝ := []

/-- Modelled from the spec: `fixed` — `to_external` is constantly the
captured target. -/
def to_external_fixed (targets : List ℝ) (_u : List ℝ) : List ℝ := targets

/-- Modelled from the spec: `equality` — keep the first entry as the one
free value. -/
def to_internal_equality (x : List ℝ) : List ℝ := [x.headD 0]

/-- Modelled from the spec: `equality` — broadcast the single internal
value to all `n` positions. -/
def to_external_equality (n : ℕ) (u : List ℝ) : List ℝ :=
  List.replicate n (u.headD 0)

/-- Modelled from the spec: `pairwise_equality` — the first list is the
free side. -/
def to_internal_pairwise (x1 _x2 : List ℝ) : List ℝ := x1

/-- Modelled from the spec: `pairwise_equality` — copy the internal slice
to both lists. -/
def to_external_pairwise (u : List ℝ) : List ℝ × List ℝ := (u, u)

/-- Natural logarithms of the consecutive increments of a list, given the
previous value. -/
def logIncrements (prev : ℝ) : List ℝ → List ℝ
  | [] => []
  | w :: ws => Real.log (w - prev) :: logIncrements w ws

/-- Modelled from the spec: `increasing` — first value free, then the
natural logarithm of each increment. -/
def to_internal_increasing : List ℝ → List ℝ
  | [] => []
  | v :: vs => v :: logIncrements v vs

/-- Rebuild the tail of an increasing sequence from a start value and the
logarithms of its increments. -/
def accumulate (prev : ℝ) : List ℝ → List ℝ
  | [] => []
  | u :: us => (prev + Real.exp u) :: accumulate (prev + Real.exp u) us

/-- Modelled from the spec: `increasing` — `vᵢ = vᵢ₋₁ + exp uᵢ`. -/
def to_external_increasing : List ℝ → List ℝ
  | [] => []
  | v :: us => v :: accumulate v us

/-- Modelled from the spec: `sum` — identity on the first `n − 1` values;
the last one's degree of freedom is dropped. -/
def to_internal_sum (x : List ℝ) : List ℝ := x.dropLast

/-- Modelled from the spec: `sum` — first `n − 1` values copied, the last
one implied by the target. -/
def to_external_sum (t : ℝ) (u : List ℝ) : List ℝ := u ++ [t - u.sum]

/-- Modelled from the spec: `probability` — log-ratios to the last
(reference) category. -/
def to_internal_probability (x : List ℝ) : List ℝ :=
  x.dropLast.map fun xi => Real.log (xi / x.getLastD 1)

/-- Modelled from the spec: `probability` — softmax with the implicit
reference entry fixed at `0` appended before normalizing. -/
def to_external_probability (u : List ℝ) : List ℝ :=
  ((u ++ [0]).map Real.exp).map fun ei => ei / ((u ++ [0]).map Real.exp).sum

/-- Modelled from the spec: rebuild the lower-triangular Cholesky
candidate from an internal covariance slice: diagonal entries are
exponentials of the stored values, sub-diagonal entries are stored
directly. -/
def buildLower (n : ℕ) (u : List ℝ) : Matrix (Fin n) (Fin n) ℝ :=
  Matrix.of fun i j =>
    if (i : ℕ) = (j : ℕ) then Real.exp (u.getD (idx i i) 0)
    else if (j : ℕ) < (i : ℕ) then u.getD (idx i j) 0
    else 0

/-- Modelled from the spec: `covariance` — rebuild `L`, form `L * Lᵀ` and
flatten its lower triangle in row-major order. -/
def to_external_covariance (n : ℕ) (u : List ℝ) : List ℝ :=
  packLower n (buildLower n u * (buildLower n u)ᵀ)

/-- Modelled from the spec: `covariance` — the one-time setup transform:
Cholesky-factorize the matrix rebuilt from the external slice and store
its lower triangle with the diagonal replaced by its natural logarithm.
Outside the positive definite domain the library routine raises (the
engine surfaces `infeasibleStartError` at build time); the slice is
returned unchanged there. -/
def to_internal_covariance (n : ℕ) (x : List ℝ) : List ℝ :=
  if h : (unpackSym n x).PosDef then
    (List.range (tri n)).map fun k =>
      if (rowcol k).2 = (rowcol k).1 then
        Real.log (entryAt (cholFactor h) (rowcol k).1 (rowcol k).1)
      else entryAt (cholFactor h) (rowcol k).1 (rowcol k).2
  else x

/-- Flatten the strict lower triangle of an `n × n` matrix in row-major
order (the packing used by the correlation part of `sdcorr`). -/
def packStrictLower (n : ℕ) (M : Matrix (Fin n) (Fin n) ℝ) : List ℝ :=
  (List.range (tri (n - 1))).map fun k =>
    entryAt M ((rowcol k).1 + 1) (rowcol k).2

/-- The unit-diagonal symmetric matrix whose strict lower triangle in
row-major order is the vector `c`. -/
def unpackCorr (n : ℕ) (c : List ℝ) : Matrix (Fin n) (Fin n) ℝ :=
  Matrix.of fun i j =>
    if (i : ℕ) = (j : ℕ) then 1
    else if (j : ℕ) < (i : ℕ) then c.getD (idx ((i : ℕ) - 1) j) 0
    else c.getD (idx ((j : ℕ) - 1) i) 0

/-- Rebuild the unit-diagonal lower-triangular factor of the correlation
block from its stored strict lower triangle. -/
def buildUnitLower (n : ℕ) (c : List ℝ) : Matrix (Fin n) (Fin n) ℝ :=
  Matrix.of fun i j =>
    if (i : ℕ) = (j : ℕ) then 1
    else if (j : ℕ) < (i : ℕ) then c.getD (idx ((i : ℕ) - 1) j) 0
    else 0

/-- Modelled from the spec: the correlation matrix produced by the sdcorr
inverse transform: form `L * Lᵀ` for the unit-diagonal lower-triangular
`L` rebuilt from the internal correlation block, then renormalize the
diagonal to exactly `1`. -/
def sdcorrCorrMatrix (n : ℕ) (c : List ℝ) : Matrix (Fin n) (Fin n) ℝ :=
  Matrix.of fun i j =>
    (buildUnitLower n c * (buildUnitLower n c)ᵀ) i j /
      (Real.sqrt ((buildUnitLower n c * (buildUnitLower n c)ᵀ) i i) *
       Real.sqrt ((buildUnitLower n c * (buildUnitLower n c)ᵀ) j j))

/-- Modelled from the spec: `sdcorr` — exponentials of the first `n` slots
(the log standard deviations) followed by the strict lower triangle of the
renormalized correlation matrix. -/
def to_external_sdcorr (n : ℕ) (u : List ℝ) : List ℝ :=
  (u.take n).map Real.exp ++ packStrictLower n (sdcorrCorrMatrix n (u.drop n))

/-- Modelled from the spec: `sdcorr` — the one-time setup transform: log
of each standard deviation; the correlation block is Cholesky-factorized
and each row of the factor is divided by its diagonal entry, so that the
stored factor has an implicit unit diagonal. -/
def to_internal_sdcorr (n : ℕ) (x : List ℝ) : List ℝ :=
  if h : (unpackCorr n (x.drop n)).PosDef then
    (x.take n).map Real.log ++
      packStrictLower n
        (Matrix.of fun i j => cholFactor h i j / cholFactor h i i)
  else x

/-! ### Reparametrization driver (spec §4.5) -/

/-- `invTri (tri n) = n`: recover the matrix dimension from the length of
a packed lower triangle. -/
def invTri (m : ℕ) : ℕ := (rowcol m).1

/-- Recover the matrix dimension from the length of an sdcorr slice
(`n` standard deviations plus the strict lower triangle). -/
def sdcorrDim (m : ℕ) : ℕ :=
  ((List.range (m + 1)).filter fun k => k + tri (k - 1) = m).headD 0

/-- Modelled from the spec (§3, Internal Vector): the positions of a group
whose internal degrees of freedom are dropped: all of them for `fixed`,
all but the first for `equality`, the last for `sum` and `probability`,
the second selection for `pairwise_equality`, none for the rest. -/
def droppedOf (g : Group) : List ℕ :=
  match g.ctype with
  | .fixed => g.positions
  | .equality => g.positions.tail
  | .sum => g.positions.drop (g.positions.length - 1)
  | .probability => g.positions.drop (g.positions.length - 1)
  | .pairwise_equality => g.positions2
  | _ => []

/-- The positions of a group that carry internal degrees of freedom, in
group order. -/
def keptOf (g : Group) : List ℕ :=
  match g.ctype with
  | .fixed => []
  | .equality => g.positions.take 1
  | .sum => g.positions.dropLast
  | .probability => g.positions.dropLast
  | _ => g.positions

/-- Positions of the whole vector that survive into the internal vector,
in Parameter Vector order. -/
def keptPositions (N : ℕ) (gs : List Group) : List ℕ :=
  (List.range N).filter fun p => gs.all fun g => !(droppedOf g).contains p

/-- The length of the internal vector. -/
def internalLength (N : ℕ) (gs : List Group) : ℕ := (keptPositions N gs).length

/-- The internal value attached to a kept external position. -/
def slotValue (kept : List ℕ) (u : List ℝ) (p : ℕ) : ℝ := u.getD (kept.indexOf p) 0

/-- Write the values `xs` at the positions `ps` of `ext`. -/
def scatter (ext : List ℝ) (ps : List ℕ) (xs : List ℝ) : List ℝ :=
  (ps.zip xs).foldl (fun e pv => e.set pv.1 pv.2) ext

/-- The internal slice belonging to one group. -/
def groupInternalSlice (kept : List ℕ) (u : List ℝ) (g : Group) : List ℝ :=
  (keptOf g).map (slotValue kept u)

/-- Dispatch the per-type `to_external` on one group's internal slice. -/
def groupExternal (g : Group) (s : List ℝ) : List ℝ :=
  match g.ctype with
  | .covariance => to_external_covariance (invTri g.positions.length) s
  | .sdcorr => to_external_sdcorr (sdcorrDim g.positions.length) s
  | .sum => to_external_sum g.target s
  | .probability => to_external_probability s
  | .increasing => to_external_increasing s
  | .equality => to_external_equality g.positions.length s
  | .pairwise_equality => s
  | .fixed => to_external_fixed g.fixedValues s

/-- Write one group's external slice into the assembled external vector
(for `pairwise_equality` the internal slice is copied to both position
lists). -/
def applyGroup (kept : List ℕ) (u : List ℝ) (ext : List ℝ) (g : Group) : List ℝ :=
  match g.ctype with
  | .pairwise_equality =>
      scatter (scatter ext g.positions (groupInternalSlice kept u g)) g.positions2
        (groupInternalSlice kept u g)
  | _ => scatter ext g.positions (groupExternal g (groupInternalSlice kept u g))

/-- Modelled from the spec (§4.5): `to_external` — a pure total function
of the internal vector, called on every optimizer iteration.  Free
positions pass through unchanged; each group's external slice is written
at the group's positions. -/
def to_external (N : ℕ) (gs : List Group) (u : List ℝ) : List ℝ :=
  gs.foldl (applyGroup (keptPositions N gs) u)
    ((List.range N).map fun p =>
      if (keptPositions N gs).contains p then slotValue (keptPositions N gs) u p else 0)

/-- External starting slice of a group. -/
def startSlice (vec : ParamVec) (g : Group) : List ℝ := g.positions.map (valueAt vec)

/-- Modelled from the spec (§7): feasibility of the starting values of one
group — the condition under which the one-time forward transform run by
`build` succeeds. -/
def feasibleStart (vec : ParamVec) (g : Group) : Prop :=
  match g.ctype with
  | .covariance => (unpackSym (invTri g.positions.length) (startSlice vec g)).PosDef
  | .sdcorr =>
      (unpackCorr (sdcorrDim g.positions.length)
        ((startSlice vec g).drop (sdcorrDim g.positions.length))).PosDef ∧
      ∀ s ∈ (startSlice vec g).take (sdcorrDim g.positions.length), 0 < s
  | .increasing => List.Chain' (· ≤ ·) (startSlice vec g)
  | .probability =>
      (∀ y ∈ startSlice vec g, 0 ≤ y ∧ y ≤ 1) ∧ (startSlice vec g).sum = 1
  | _ => True

/-- Modelled from the spec (§4.5, §7): running each group's forward
transform once on the starting values signals `infeasibleStartError` when
a starting slice violates its constraint's feasible set. -/
def checkFeasible (vec : ParamVec) (gs : List Group) : Except Err (List Group) :=
  if ∀ g ∈ gs, feasibleStart vec g then .ok gs else .error .infeasibleStartError

/-- Modelled from the spec (§4.5): `build` — resolve, validate and check
the one-time forward transforms; every error kind is surfaced here. -/
def build (ds : List Decl) (vec : ParamVec) : Except Err (List Group) := do
  let gs ← processConstraints ds vec
  let gs ← checkOverlaps vec gs
  checkFeasible vec gs

/-! ### Helper lemmas: lists, scatter, resolve, driver shape -/

theorem getD_set_ne (l : List ℝ) (i : ℕ) (v : ℝ) (p : ℕ) (h : p ≠ i) :
    (l.set i v).getD p 0 = l.getD p 0 := by
  rw [List.getD_eq_getElem?_getD, List.getD_eq_getElem?_getD,
    List.getElem?_set_ne (by omega)]

theorem getD_set_self (l : List ℝ) (i : ℕ) (v : ℝ) (h : i < l.length) :
    (l.set i v).getD i 0 = v := by
  rw [List.getD_eq_getElem?_getD, List.getElem?_set_self (by omega)]
  rfl

theorem scatter_nil (e : List ℝ) (xs : List ℝ) : scatter e [] xs = e := rfl

theorem scatter_nil_right (e : List ℝ) (ps : List ℕ) : scatter e ps [] = e := by
  cases ps <;> rfl

theorem scatter_cons (e : List ℝ) (p : ℕ) (ps : List ℕ) (x : ℝ) (xs : List ℝ) :
    scatter e (p :: ps) (x :: xs) = scatter (e.set p x) ps xs := rfl

theorem scatter_length : ∀ (ps : List ℕ) (xs : List ℝ) (e : List ℝ),
    (scatter e ps xs).length = e.length
  | [], _, _ => rfl
  | _ :: _, [], _ => by rw [scatter_nil_right]
  | p :: ps, x :: xs, e => by
    rw [scatter_cons, scatter_length ps xs, List.length_set]

theorem scatter_getD_not_mem : ∀ (ps : List ℕ) (xs : List ℝ) (e : List ℝ) (p : ℕ),
    p ∉ ps → (scatter e ps xs).getD p 0 = e.getD p 0
  | [], _, _, _, _ => rfl
  | _ :: _, [], _, _, _ => by rw [scatter_nil_right]
  | q :: qs, x :: xs, e, p, hp => by
    rw [scatter_cons, scatter_getD_not_mem qs xs _ p (fun h => hp (List.mem_cons_of_mem _ h)),
      getD_set_ne _ _ _ _ (fun h : p = q => hp (h ▸ List.mem_cons_self q qs))]

theorem scatter_getD_get : ∀ (ps : List ℕ) (xs : List ℝ) (e : List ℝ),
    ps.Nodup → xs.length = ps.length → (∀ q ∈ ps, q < e.length) →
    ∀ k (hk : k < ps.length),
      (scatter e ps xs).getD (ps.get ⟨k, hk⟩) 0 = xs.getD k 0
  | [], _, _, _, _, _, k, hk => absurd hk (by simp)
  | q :: qs, [], e, _, hlen, _, _, _ => by simp at hlen
  | q :: qs, x :: xs, e, hnd, hlen, hlt, 0, hk => by
    rw [scatter_cons, List.get]
    have hq : q ∉ qs := (List.nodup_cons.mp hnd).1
    rw [scatter_getD_not_mem qs xs _ q hq,
      getD_set_self _ _ _ (hlt q (List.mem_cons_self _ _))]
    rfl
  | q :: qs, x :: xs, e, hnd, hlen, hlt, k + 1, hk => by
    rw [scatter_cons, List.get]
    have := scatter_getD_get qs xs (e.set q x) (List.nodup_cons.mp hnd).2
      (by simpa using Nat.succ_injective hlen)
      (fun r hr => by rw [List.length_set]; exact hlt r (List.mem_cons_of_mem _ hr))
      k (by simpa using Nat.lt_of_succ_lt_succ hk)
    exact this

theorem resolve_nodup (loc : String) (vec : ParamVec) : (resolve loc vec).Nodup :=
  (List.nodup_range _).filter _

theorem resolve_lt (loc : String) (vec : ParamVec) :
    ∀ p ∈ resolve loc vec, p < vec.length := by
  intro p hp
  have h := (List.mem_filter.mp hp).1
  exact List.mem_range.mp h

theorem applyGroup_length (kept : List ℕ) (u : List ℝ) (e : List ℝ) (g : Group) :
    (applyGroup kept u e g).length = e.length := by
  rw [applyGroup]
  split <;> simp [scatter_length]

theorem foldl_applyGroup_length (kept : List ℕ) (u : List ℝ) :
    ∀ (gs : List Group) (e : List ℝ),
      (gs.foldl (applyGroup kept u) e).length = e.length
  | [], e => rfl
  | g :: gs, e => by
    rw [List.foldl_cons, foldl_applyGroup_length kept u gs, applyGroup_length]

theorem length_to_external (N : ℕ) (gs : List Group) (u : List ℝ) :
    (to_external N gs u).length = N := by
  rw [to_external, foldl_applyGroup_length]
  simp

/-- Modelled from the spec and the repository notebook: the helper
`cov_params_to_matrix` expands a packed row-major lower triangle into the
full symmetric matrix. -/
def cov_params_to_matrix (n : ℕ) (x : List ℝ) : Matrix (Fin n) (Fin n) ℝ :=
  unpackSym n x

/-- C10: for every `n` and every vector of length `n (n + 1) / 2` (and in
fact any vector), `cov_params_to_matrix` returns the symmetric `n × n`
matrix whose row-major lower triangle is the input vector; on the
notebook's example `(1, 0, 1, -0.2, 0, 1)` it returns
`[[1, 0, -0.2], [0, 1, 0], [-0.2, 0, 1]]`. -/
theorem claim_C10 :
    (∀ (n : ℕ) (x : List ℝ), (cov_params_to_matrix n x)ᵀ = cov_params_to_matrix n x) ∧
    (∀ (n : ℕ) (x : List ℝ) (i j : Fin n), (j : ℕ) ≤ (i : ℕ) →
      cov_params_to_matrix n x i j = x.getD (idx i j) 0) ∧
    cov_params_to_matrix 3 [1, 0, 1, -0.2, 0, 1] =
      Matrix.of ![![1, 0, -0.2], ![0, 1, 0], ![-0.2, 0, 1]] := by
  refine ⟨?_, ?_, ?_⟩
  · intro n x
    ext i j
    rw [Matrix.transpose_apply, cov_params_to_matrix, unpackSym]
    simp only [Matrix.of_apply]
    by_cases h1 : (j : ℕ) ≤ (i : ℕ) <;> by_cases h2 : (i : ℕ) ≤ (j : ℕ)
    · have : i = j := Fin.ext (le_antisymm h2 h1)
      subst this
      rfl
    · rw [if_pos h1, if_neg h2]
    · rw [if_neg h1, if_pos h2]
    · exact absurd (le_total (i : ℕ) (j : ℕ)) (by tauto)
  · intro n x i j h
    rw [cov_params_to_matrix, unpackSym]
    simp only [Matrix.of_apply, if_pos h]
  · ext i j
    fin_cases i <;> fin_cases j <;>
      simp [cov_params_to_matrix, unpackSym, idx, tri, List.getD]

/-- C10 witness: the general lower-triangle formula evaluated at the
notebook's concrete input, entry `(2, 0)`. -/
theorem claim_C10_witness :
    cov_params_to_matrix 3 [1, 0, 1, -0.2, 0, 1] 2 0 = -0.2 := by
  rw [claim_C10.2.1 3 [1, 0, 1, -0.2, 0, 1] 2 0 (by decide)]
  norm_num [idx, tri, List.getD]

/-! ### Lemmas about the increasing transform -/

theorem accumulate_chain : ∀ (us : List ℝ) (p : ℝ) (i : ℕ),
    i + 1 < (p :: accumulate p us).length →
    (p :: accumulate p us).getD (i + 1) 0 =
      (p :: accumulate p us).getD i 0 + Real.exp (us.getD i 0)
  | [], p, i, h => by simp [accumulate] at h
  | w :: ws, p, 0, h => by
    rw [accumulate]
    rfl
  | w :: ws, p, i + 1, h => by
    rw [accumulate]
    have ih := accumulate_chain ws (p + Real.exp w) i (by
      rw [accumulate] at h
      simpa using Nat.lt_of_succ_lt_succ h)
    exact ih

theorem logIncrements_getD : ∀ (vs : List ℝ) (p : ℝ) (i : ℕ), i < vs.length →
    (logIncrements p vs).getD i 0 = Real.log (vs.getD i 0 - (p :: vs).getD i 0)
  | [], _, i, h => by simp at h
  | w :: ws, p, 0, h => by rw [logIncrements]; rfl
  | w :: ws, p, i + 1, h => by
    rw [logIncrements]
    exact logIncrements_getD ws w i (Nat.lt_of_succ_lt_succ h)

theorem length_accumulate : ∀ (us : List ℝ) (p : ℝ),
    (accumulate p us).length = us.length
  | [], _ => rfl
  | w :: ws, p => by rw [accumulate, List.length_cons, length_accumulate ws]; rfl

theorem length_logIncrements : ∀ (vs : List ℝ) (p : ℝ),
    (logIncrements p vs).length = vs.length
  | [], _ => rfl
  | w :: ws, p => by rw [logIncrements, List.length_cons, length_logIncrements ws]; rfl

/-- C6: the increasing transform stores the first value and the natural
logarithms of the consecutive increments, and its inverse reconstructs
`vᵢ = vᵢ₋₁ + exp uᵢ`; concretely `[2.0, 4.0]` maps to `[2.0, ln 2.0]` and
`to_external` of that internal slice reproduces `[2.0, 4.0]`. -/
theorem claim_C6 :
    (∀ (v : List ℝ), (to_internal_increasing v).getD 0 0 = v.getD 0 0) ∧
    (∀ (v : List ℝ) (i : ℕ), i + 1 < v.length →
      (to_internal_increasing v).getD (i + 1) 0 =
        Real.log (v.getD (i + 1) 0 - v.getD i 0)) ∧
    (∀ (u : List ℝ), (to_external_increasing u).getD 0 0 = u.getD 0 0) ∧
    (∀ (u : List ℝ) (i : ℕ), i + 1 < u.length →
      (to_external_increasing u).getD (i + 1) 0 =
        (to_external_increasing u).getD i 0 + Real.exp (u.getD (i + 1) 0)) ∧
    to_internal_increasing [2, 4] = [2, Real.log 2] ∧
    to_external_increasing [2, Real.log 2] = [2, 4] := by
  refine ⟨?_, ?_, ?_, ?_, ?_, ?_⟩
  · intro v
    cases v <;> rfl
  · intro v i h
    match v, h with
    | v0 :: vs, h =>
      rw [to_internal_increasing]
      have := logIncrements_getD vs v0 i (by simpa using Nat.lt_of_succ_lt_succ h)
      rw [show ((v0 :: vs).getD (i + 1) 0) = vs.getD i 0 from rfl]
      exact this
  · intro u
    cases u <;> rfl
  · intro u i h
    match u, h with
    | v :: us, h =>
      rw [to_external_increasing]
      have hlen : i + 1 < (v :: accumulate v us).length := by
        rw [List.length_cons, length_accumulate]
        simpa using h
      rw [accumulate_chain us v i hlen]
      rfl
  · rw [to_internal_increasing, logIncrements, logIncrements]
    norm_num
  · rw [to_external_increasing, accumulate, accumulate]
    rw [Real.exp_log (by norm_num : (0 : ℝ) < 2)]
    norm_num

/-- C6 witness: the step recurrences applied at the concrete scenario. -/
theorem claim_C6_witness :
    (to_internal_increasing [2, 4]).getD 1 0 = Real.log ((4 : ℝ) - 2) ∧
    (to_external_increasing [2, Real.log 2]).getD 1 0 =
      (to_external_increasing [2, Real.log 2]).getD 0 0 + Real.exp (Real.log 2) := by
  constructor
  · have h := claim_C6.2.1 [2, 4] 0 (by norm_num)
    simpa [List.getD] using h
  · have h := claim_C6.2.2.2.1 [2, Real.log 2] 0 (by norm_num)
    simpa [List.getD] using h

/-! ### C5: kill semantics -/

theorem killIds_append (a b : List Decl) : killIds (a ++ b) = killIds a ++ killIds b :=
  List.filterMap_append a b _

theorem killed_congr {ks1 ks2 : List ℤ} (d : RealDecl)
    (h : ∀ i, d.cid = some i → (i ∈ ks1 ↔ i ∈ ks2)) :
    killed ks1 d = killed ks2 d := by
  rw [killed, killed]
  cases hc : d.cid with
  | none => rfl
  | some i =>
    have := h i hc
    rw [Bool.eq_iff_iff]
    simpa using this

theorem filterMap_effective_congr (l : List Decl) (ks1 ks2 : List ℤ)
    (h : ∀ r : RealDecl, .real r ∈ l → killed ks1 r = killed ks2 r) :
    (l.filterMap fun d =>
      match d with
      | .real r => if killed ks1 r then none else some r
      | .kill _ => none) =
    (l.filterMap fun d =>
      match d with
      | .real r => if killed ks2 r then none else some r
      | .kill _ => none) := by
  apply List.filterMap_congr
  intro d hd
  match d with
  | .kill _ => rfl
  | .real r =>
    show (if killed ks1 r then none else some r : Option RealDecl) =
      if killed ks2 r then none else some r
    rw [h r hd]

theorem effective_killed_id (pre post : List Decl) (d : RealDecl) (k : ℤ)
    (hd : d.cid = some k)
    (hothers : ∀ r : RealDecl, .real r ∈ pre ++ post → r.cid ≠ some k) :
    effective (pre ++ [.real d] ++ post ++ [.kill k]) = effective (pre ++ post) := by
  set L : List Decl := pre ++ [.real d] ++ post ++ [.kill k] with hL
  have hks : killIds L = killIds pre ++ killIds post ++ [k] := by
    rw [hL, killIds_append, killIds_append, killIds_append,
      show killIds [Decl.real d] = [] from rfl,
      show killIds [Decl.kill k] = [k] from rfl]
    simp
  have hkmem : k ∈ killIds L := by rw [hks]; simp
  have hcongr : ∀ r : RealDecl, .real r ∈ pre ++ post →
      killed (killIds L) r = killed (killIds (pre ++ post)) r := by
    intro r hr
    apply killed_congr
    intro i hi
    have hik : i ≠ k := fun he => hothers r hr (he ▸ hi)
    rw [hks, killIds_append]
    simp [hik]
  rw [effective, effective]
  conv_lhs => rw [hL]
  rw [List.filterMap_append, List.filterMap_append, List.filterMap_append,
    List.filterMap_append]
  have hdrop : ([Decl.real d].filterMap fun x =>
      match x with
      | .real r => if killed (killIds L) r then none else some r
      | .kill _ => none) = [] := by
    have : killed (killIds L) d = true := by
      rw [killed, hd]
      simpa using hkmem
    simp [List.filterMap, this]
  rw [hdrop]
  have hkilldrop : ([Decl.kill k].filterMap fun x =>
      match x with
      | .real r => if killed (killIds L) r then none else some r
      | .kill _ => none) = [] := rfl
  rw [hkilldrop]
  rw [filterMap_effective_congr pre _ (killIds (pre ++ post))
      (fun r hr => hcongr r (List.mem_append_left _ hr)),
    filterMap_effective_congr post _ (killIds (pre ++ post))
      (fun r hr => hcongr r (List.mem_append_right _ hr))]
  simp

theorem effective_noop (ds : List Decl) (k : ℤ)
    (h : ∀ r : RealDecl, .real r ∈ ds → r.cid ≠ some k) :
    effective (ds ++ [.kill k]) = effective ds := by
  have hks : killIds (ds ++ [.kill k]) = killIds ds ++ [k] := by
    rw [killIds_append, show killIds [Decl.kill k] = [k] from rfl]
  rw [effective, effective, List.filterMap_append]
  have hkilldrop : ([Decl.kill k].filterMap fun x =>
      match x with
      | .real r => if killed (killIds (ds ++ [.kill k])) r then none else some r
      | .kill _ => none) = [] := rfl
  rw [hkilldrop]
  rw [filterMap_effective_congr ds _ (killIds ds) (fun r hr => by
    apply killed_congr
    intro i hi
    have hik : i ≠ k := fun he => h r hr (he ▸ hi)
    rw [hks]
    simp [hik])]
  simp

/-- C5: a declaration carrying id `k` together with the killer `kill k`
resolves to exactly the same Constraint Group list as the list with that
declaration omitted (provided no other declaration carries id `k`), and a
kill whose id matches no declaration is a no-op. -/
theorem claim_C5 (vec : ParamVec) (pre post : List Decl) (d : RealDecl) (k : ℤ)
    (hd : d.cid = some k)
    (hothers : ∀ r : RealDecl, .real r ∈ pre ++ post → r.cid ≠ some k) :
    processConstraints (pre ++ [.real d] ++ post ++ [.kill k]) vec =
      processConstraints (pre ++ post) vec ∧
    ∀ (ds : List Decl) (q : ℤ), (∀ r : RealDecl, .real r ∈ ds → r.cid ≠ some q) →
      processConstraints (ds ++ [.kill q]) vec = processConstraints ds vec := by
  constructor
  · rw [processConstraints, processConstraints,
      effective_killed_id pre post d k hd hothers]
  · intro ds q hq
    rw [processConstraints, processConstraints, effective_noop ds q hq]

/-- C5 witness: the notebook's `constraints1`/`constraints2` pair: killing
id 0 after declaring it equals omitting the declaration. -/
theorem claim_C5_witness :
    processConstraints
        [.real ⟨.equality, "a", none, none, some 0⟩,
         .real ⟨.increasing, "b", none, none, some 1⟩, .kill 0]
        [⟨"a", 0, 1⟩, ⟨"b", 0, 2⟩] =
      processConstraints [.real ⟨.increasing, "b", none, none, some 1⟩]
        [⟨"a", 0, 1⟩, ⟨"b", 0, 2⟩] := by
  have h := (claim_C5 [⟨"a", 0, 1⟩, ⟨"b", 0, 2⟩] []
      [.real ⟨.increasing, "b", none, none, some 1⟩]
      ⟨.equality, "a", none, none, some 0⟩ 0 rfl (by
        intro r hr
        simp only [List.nil_append, List.mem_singleton] at hr
        rw [Decl.real.injEq] at hr
        subst hr
        decide)).1
  simpa using h

/-! ### C7: the sum target is mandatory -/

theorem killed_nil (r : RealDecl) : killed [] r = false := by
  rw [killed]
  cases r.cid <;> rfl

theorem effective_singleton (r : RealDecl) : effective [.real r] = [r] := by
  rw [effective, show killIds [Decl.real r] = [] from rfl]
  simp [List.filterMap_cons, killed_nil]

/-- C7 counterexample: a `sum` declaration without an explicit target is
rejected with `configurationError` even though its selector matches a
parameter; the parser does not default the target to the starting sum. -/
theorem claim_C7_counterexample :
    resolve "a" [⟨"a", 0, 1⟩] = [0] ∧
    processConstraints [.real ⟨.sum, "a", none, none, none⟩] [⟨"a", 0, 1⟩] =
      .error .configurationError := by
  constructor
  · rfl
  · rfl

/-- C7 (amended): the target value of a `sum` declaration is mandatory:
with a nonempty selection, the parser rejects a sum declaration without an
explicit target with `configurationError`, and accepts one with a target,
which becomes the group's recorded target. -/
theorem claim_C7 (vec : ParamVec) (loc : String) (l2 : Option String)
    (i : Option ℤ) (t : ℝ) (hne : resolve loc vec ≠ []) :
    processConstraints [.real ⟨.sum, loc, l2, none, i⟩] vec =
      .error .configurationError ∧
    processConstraints [.real ⟨.sum, loc, l2, some t, i⟩] vec =
      .ok [⟨.sum, resolve loc vec, [], t, []⟩] := by
  have hemp : (resolve loc vec).isEmpty = false := by
    cases hr : resolve loc vec with
    | nil => exact absurd hr hne
    | cons a l => rfl
  constructor
  · rw [processConstraints, effective_singleton]
    rw [show ([(⟨.sum, loc, l2, none, i⟩ : RealDecl)].mapM (resolveDecl vec)) =
      (resolveDecl vec ⟨.sum, loc, l2, none, i⟩ >>= fun g =>
        (([] : List RealDecl).mapM (resolveDecl vec)) >>= fun gs =>
          pure (g :: gs)) from rfl]
    rw [resolveDecl]
    simp only [hemp, Bool.false_eq_true, if_false]
    rfl
  · rw [processConstraints, effective_singleton]
    rw [show ([(⟨.sum, loc, l2, some t, i⟩ : RealDecl)].mapM (resolveDecl vec)) =
      (resolveDecl vec ⟨.sum, loc, l2, some t, i⟩ >>= fun g =>
        (([] : List RealDecl).mapM (resolveDecl vec)) >>= fun gs =>
          pure (g :: gs)) from rfl]
    rw [resolveDecl]
    simp only [hemp, Bool.false_eq_true, if_false]
    rfl

/-- C7 witness: the amended statement at a concrete vector. -/
theorem claim_C7_witness :
    processConstraints [.real ⟨.sum, "a", none, none, none⟩] [⟨"a", 0, 1⟩] =
      .error .configurationError ∧
    processConstraints [.real ⟨.sum, "a", none, some 5, none⟩] [⟨"a", 0, 1⟩] =
      .ok [⟨.sum, resolve "a" [⟨"a", 0, 1⟩], [], 5, []⟩] :=
  claim_C7 [⟨"a", 0, 1⟩] "a" none none 5 (by decide)

/-! ### C4: conflict detection -/

theorem findOverlap_some_ne_nil : ∀ (gs : List Group) (l : List ℕ),
    findOverlap gs = some l → l ≠ []
  | [], l, h => by simp [findOverlap] at h
  | g :: gs, l, h => by
    rw [findOverlap] at h
    by_cases hsh : ((allPositions g).filter fun p =>
        gs.any fun h => (allPositions h).contains p).isEmpty
    · rw [if_pos hsh] at h
      exact findOverlap_some_ne_nil gs l h
    · rw [if_neg hsh] at h
      cases h
      intro hnil
      rw [hnil] at hsh
      exact hsh rfl

theorem findOverlap_none : ∀ (gs : List Group), findOverlap gs = none →
    ∀ (i j : ℕ) (hi : i < gs.length) (hj : j < gs.length), i < j →
      ∀ p, p ∈ allPositions (gs.get ⟨i, hi⟩) → p ∉ allPositions (gs.get ⟨j, hj⟩)
  | [], _, i, j, hi, hj, hij, p, hpi => by simp at hi
  | g :: gs, h, i, j, hi, hj, hij, p, hpi => by
    rw [findOverlap] at h
    by_cases hsh : ((allPositions g).filter fun p =>
        gs.any fun h => (allPositions h).contains p).isEmpty
    · rw [if_pos hsh] at h
      match i, j, hij with
      | 0, j' + 1, _ =>
        intro hpj
        have hg : p ∈ allPositions g := hpi
        have hmem : ((allPositions g).filter fun p =>
            gs.any fun h => (allPositions h).contains p) = [] :=
          List.isEmpty_iff.mp hsh
        have : gs.any (fun h => (allPositions h).contains p) = true := by
          rw [List.any_eq_true]
          exact ⟨gs.get ⟨j', by simpa using Nat.lt_of_succ_lt_succ hj⟩,
            List.get_mem _ _ _, by simpa using hpj⟩
        have hp : p ∈ (allPositions g).filter fun p =>
            gs.any fun h => (allPositions h).contains p :=
          List.mem_filter.mpr ⟨hg, this⟩
        rw [hmem] at hp
        exact absurd hp (List.not_mem_nil p)
      | i' + 1, j' + 1, hij =>
        exact findOverlap_none gs h i' j'
          (by simpa using Nat.lt_of_succ_lt_succ hi)
          (by simpa using Nat.lt_of_succ_lt_succ hj)
          (Nat.lt_of_succ_lt_succ hij) p hpi
    · rw [if_neg hsh] at h
      cases h

/-- C4: if two resolved groups share a parameter position, `build` fails
with `overlappingConstraintError` naming offending identities;
disjointness is strict across all group types (in particular an equality
and a fixed declaration on the same parameters are rejected, and a
covariance group may not overlap any other constraint). -/
theorem claim_C4 (vec : ParamVec) (ds : List Decl) (gs : List Group)
    (hp : processConstraints ds vec = .ok gs)
    (i j : ℕ) (hi : i < gs.length) (hj : j < gs.length) (hne : i ≠ j) (p : ℕ)
    (hpi : p ∈ allPositions (gs.get ⟨i, hi⟩))
    (hpj : p ∈ allPositions (gs.get ⟨j, hj⟩)) :
    ∃ ids, ids ≠ [] ∧
      build ds vec = .error (.overlappingConstraintError ids) := by
  cases hov : findOverlap gs with
  | none =>
    exfalso
    rcases lt_or_gt_of_ne hne with hlt | hgt
    · exact findOverlap_none gs hov i j hi hj hlt p hpi hpj
    · exact findOverlap_none gs hov j i hj hi hgt p hpj hpi
  | some l =>
    refine ⟨l.map (identityAt vec), ?_, ?_⟩
    · intro hmapnil
      exact findOverlap_some_ne_nil gs l hov (List.map_eq_nil_iff.mp hmapnil)
    · rw [build, hp]
      show Except.bind (checkOverlaps vec gs) (checkFeasible vec) = _
      rw [checkOverlaps, hov]
      rfl

/-- C4 witness: an equality and a fixed declaration selecting the same
parameters are rejected with `overlappingConstraintError`. -/
theorem claim_C4_witness :
    ∃ ids, ids ≠ [] ∧
      build
          [.real ⟨.equality, "a", none, none, none⟩,
           .real ⟨.fixed, "a", none, none, none⟩]
          [⟨"a", 0, 1⟩, ⟨"a", 1, 5⟩] =
        .error (.overlappingConstraintError ids) :=
  claim_C4 [⟨"a", 0, 1⟩, ⟨"a", 1, 5⟩]
    [.real ⟨.equality, "a", none, none, none⟩, .real ⟨.fixed, "a", none, none, none⟩]
    [⟨.equality, [0, 1], [], 0, []⟩, ⟨.fixed, [0, 1], [], 0, [1, 5]⟩]
    rfl 0 1 (by decide) (by decide) (by decide) 0 (by decide) (by decide)

/-! ### Single-group driver lemmas (for C8 and C9) -/

theorem process_singleton (vec : ParamVec) (r : RealDecl) :
    processConstraints [.real r] vec = (resolveDecl vec r).map fun g => [g] := by
  rw [processConstraints, effective_singleton]
  cases hr : resolveDecl vec r <;>
    simp [List.mapM, List.mapM.loop, hr, Except.map]

theorem process_singleton_ok {vec : ParamVec} {r : RealDecl} {g : Group}
    (hp : processConstraints [.real r] vec = .ok [g]) :
    resolveDecl vec r = .ok g := by
  rw [process_singleton] at hp
  cases hr : resolveDecl vec r with
  | error e => rw [hr] at hp; exact absurd hp (by simp [Except.map])
  | ok g' =>
    rw [hr] at hp
    simp only [Except.map, Except.ok.injEq] at hp
    rw [List.cons.injEq] at hp
    rw [hp.1]

theorem getD_replicate (n : ℕ) (c : ℝ) (k : ℕ) (h : k < n) :
    (List.replicate n c).getD k 0 = c := by
  rw [List.getD_eq_getElem?_getD, List.getElem?_replicate]
  simp [h]

theorem to_external_single (N : ℕ) (g : Group) (u : List ℝ)
    (hct : g.ctype ≠ .pairwise_equality) :
    to_external N [g] u =
      scatter ((List.range N).map fun p =>
          if (keptPositions N [g]).contains p then
            slotValue (keptPositions N [g]) u p
          else 0)
        g.positions (groupExternal g (groupInternalSlice (keptPositions N [g]) u g)) := by
  rw [to_external, List.foldl_cons, List.foldl_nil, applyGroup]
  split
  · rename_i h
    exact absurd h hct
  · rfl

theorem to_external_single_getD (N : ℕ) (g : Group) (u : List ℝ)
    (hct : g.ctype ≠ .pairwise_equality) (hnd : g.positions.Nodup)
    (hlt : ∀ q ∈ g.positions, q < N)
    (hlen : (groupExternal g (groupInternalSlice (keptPositions N [g]) u g)).length =
      g.positions.length)
    (k : ℕ) (hk : k < g.positions.length) :
    (to_external N [g] u).getD (g.positions.get ⟨k, hk⟩) 0 =
      (groupExternal g (groupInternalSlice (keptPositions N [g]) u g)).getD k 0 := by
  rw [to_external_single N g u hct]
  exact scatter_getD_get g.positions _ _ hnd hlen
    (fun q hq => by simpa using hlt q hq) k hk

theorem keptPositions_single_length (N : ℕ) (g : Group)
    (hnd : (droppedOf g).Nodup) (hlt : ∀ p ∈ droppedOf g, p < N) :
    (keptPositions N [g]).length = N - (droppedOf g).length := by
  rw [keptPositions]
  have hall : ((List.range N).filter fun p =>
      [g].all fun g' => !(droppedOf g').contains p) =
      (List.range N).filter fun p => !(droppedOf g).contains p := by
    apply List.filter_congr
    intro p _
    simp
  rw [hall]
  have h1 : (((List.range N).filter fun p => (droppedOf g).contains p)).length =
      (droppedOf g).length := by
    apply List.Perm.length_eq
    apply (List.perm_ext_iff_of_nodup ((List.nodup_range N).filter _) hnd).mpr
    intro a
    simp only [List.mem_filter, List.mem_range]
    constructor
    · intro ⟨_, hc⟩
      simpa using hc
    · intro ha
      exact ⟨hlt a ha, by simpa using ha⟩
  have h2 : (List.range N).length =
      ((List.range N).filter fun p => (droppedOf g).contains p).length +
        ((List.range N).filter fun p => !(droppedOf g).contains p).length :=
    List.length_eq_length_filter_add _
  rw [List.length_range] at h2
  omega

theorem isEmpty_false_ne_nil {l : List ℕ} (h : l.isEmpty = false) : l ≠ [] := by
  cases l with
  | nil => simp at h
  | cons a l => simp

theorem resolveDecl_fixed_none {vec : ParamVec} {loc : String} {i : Option ℤ}
    {g : Group} (h : resolveDecl vec ⟨.fixed, loc, none, none, i⟩ = .ok g) :
    g = ⟨.fixed, resolve loc vec, [], 0, (resolve loc vec).map (valueAt vec)⟩ ∧
      resolve loc vec ≠ [] := by
  rw [resolveDecl] at h
  by_cases hemp : (resolve loc vec).isEmpty
  · rw [if_pos hemp] at h
    exact absurd h (by simp)
  · rw [if_neg hemp] at h
    have h' : Except.ok (⟨.fixed, resolve loc vec, [], 0,
        (resolve loc vec).map (valueAt vec)⟩ : Group) = .ok g := h
    rw [Except.ok.injEq] at h'
    exact ⟨h'.symm, isEmpty_false_ne_nil (Bool.not_eq_true _ ▸ hemp)⟩

theorem resolveDecl_equality {vec : ParamVec} {loc : String}
    {g : Group} (h : resolveDecl vec ⟨.equality, loc, none, none, none⟩ = .ok g) :
    g = ⟨.equality, resolve loc vec, [], 0, []⟩ ∧ resolve loc vec ≠ [] := by
  rw [resolveDecl] at h
  by_cases hemp : (resolve loc vec).isEmpty
  · rw [if_pos hemp] at h
    exact absurd h (by simp)
  · rw [if_neg hemp] at h
    have h' : Except.ok (⟨.equality, resolve loc vec, [], 0, []⟩ : Group) = .ok g := h
    rw [Except.ok.injEq] at h'
    exact ⟨h'.symm, isEmpty_false_ne_nil (Bool.not_eq_true _ ▸ hemp)⟩

/-- C8: a `fixed` constraint without an explicit value captures its target
from the starting Parameter Vector at build time and records it in the
group; `to_external` reproduces exactly the captured target at the fixed
positions for every internal vector.  (Later value changes cannot alter
the target: the recorded group, not the live vector, is all that
`to_external` consults, as the quantification over every internal vector
shows.) -/
theorem claim_C8 (vec : ParamVec) (loc : String) (i : Option ℤ) (g : Group)
    (hp : processConstraints [.real ⟨.fixed, loc, none, none, i⟩] vec = .ok [g]) :
    g.positions = resolve loc vec ∧
    g.fixedValues = (resolve loc vec).map (valueAt vec) ∧
    ∀ (u : List ℝ) (k : ℕ) (hk : k < g.positions.length),
      (to_external vec.length [g] u).getD (g.positions.get ⟨k, hk⟩) 0 =
        g.fixedValues.getD k 0 := by
  obtain ⟨hg, hne⟩ := resolveDecl_fixed_none (process_singleton_ok hp)
  subst hg
  refine ⟨rfl, rfl, ?_⟩
  intro u k hk
  rw [to_external_single_getD vec.length _ u (fun h => CType.noConfusion h)
    (resolve_nodup loc vec)
    (resolve_lt loc vec) (by simp [groupExternal, to_external_fixed]) k hk]
  rfl

/-- C9: for the Parameter Vector `[("a",0) = 1.0, ("a",1) = 5.0]` under
`{"loc": "a", "type": "equality"}` the internal vector has length 1 and
`to_external [3.0]` assigns `3.0` to both parameters; in general the
equality transform keeps exactly one free internal value (the slot of the
group's first position) and broadcasts it to all positions of the
group. -/
theorem claim_C9 :
    (∀ (vec : ParamVec) (loc : String) (g : Group),
      processConstraints [.real ⟨.equality, loc, none, none, none⟩] vec = .ok [g] →
      internalLength vec.length [g] = vec.length - (g.positions.length - 1) ∧
      ∀ (u : List ℝ) (k : ℕ) (hk : k < g.positions.length),
        (to_external vec.length [g] u).getD (g.positions.get ⟨k, hk⟩) 0 =
          slotValue (keptPositions vec.length [g]) u (g.positions.headD 0)) ∧
    processConstraints [.real ⟨.equality, "a", none, none, none⟩]
        [⟨"a", 0, 1⟩, ⟨"a", 1, 5⟩] = .ok [⟨.equality, [0, 1], [], 0, []⟩] ∧
    internalLength 2 [⟨.equality, [0, 1], [], 0, []⟩] = 1 ∧
    to_external 2 [⟨.equality, [0, 1], [], 0, []⟩] [3] = [3, 3] := by
  refine ⟨?_, rfl, rfl, rfl⟩
  intro vec loc g hp
  obtain ⟨hg, hne⟩ := resolveDecl_equality (process_singleton_ok hp)
  subst hg
  obtain ⟨p, rest, hps⟩ := List.exists_cons_of_ne_nil hne
  constructor
  · rw [internalLength, keptPositions_single_length vec.length _
      (by simpa [droppedOf] using (resolve_nodup loc vec).tail)
      (fun q hq => resolve_lt loc vec q (List.tail_subset _ (by simpa [droppedOf] using hq)))]
    simp [droppedOf, List.length_tail]
  · intro u k hk
    rw [to_external_single_getD vec.length _ u (fun h => CType.noConfusion h)
      (resolve_nodup loc vec) (resolve_lt loc vec)
      (by simp [groupExternal, to_external_equality]) k hk]
    show (to_external_equality (resolve loc vec).length _).getD k 0 = _
    rw [to_external_equality, getD_replicate _ _ k hk]
    rw [show groupInternalSlice (keptPositions vec.length
        [⟨.equality, resolve loc vec, [], 0, []⟩]) u
        ⟨.equality, resolve loc vec, [], 0, []⟩ =
      ((resolve loc vec).take 1).map
        (slotValue (keptPositions vec.length
          [⟨.equality, resolve loc vec, [], 0, []⟩]) u) from rfl]
    rw [hps]
    rfl

/-- C8 witness: a fixed parameter at start value `0.95` is reproduced by
`to_external` for an arbitrary internal vector. -/
theorem claim_C8_witness :
    (to_external 1 [⟨.fixed, [0], [], 0, [(0.95 : ℝ)]⟩] [7]).getD 0 0 =
      [(0.95 : ℝ)].getD 0 0 := by
  have h := (claim_C8 [⟨"a", 0, 0.95⟩] "a" none
      ⟨.fixed, [0], [], 0, [(0.95 : ℝ)]⟩ rfl).2.2 [7] 0 (by decide)
  simpa using h

/-- C9 witness: the general broadcast property applied at the concrete
scenario. -/
theorem claim_C9_witness :
    (to_external 2 [⟨.equality, [0, 1], [], 0, []⟩] [3]).getD 1 0 =
      slotValue (keptPositions 2 [⟨.equality, [0, 1], [], 0, []⟩]) [3]
        ([0, 1].headD 0) := by
  have h := (claim_C9.1 [⟨"a", 0, 1⟩, ⟨"a", 1, 5⟩] "a"
      ⟨.equality, [0, 1], [], 0, []⟩ rfl).2 [3] 1 (by decide)
  simpa using h

/-! ### C3: errors only at build time; `to_external` total -/

/-- C3: the per-iteration `to_external` is a total function on the
internal domain — it returns a well-formed external vector (of the
Parameter Vector's length) for every internal vector and never raises —
while all five error kinds are signalled by `build`: in particular, the
Cholesky-based forward transform runs once at setup, and `build` signals
`infeasibleStartError` there when a starting slice (e.g. a non-PSD
covariance block) is infeasible; when parsing, overlap checking and the
start feasibility checks all pass, `build` succeeds. -/
theorem claim_C3 :
    (∀ (N : ℕ) (gs : List Group) (u : List ℝ), (to_external N gs u).length = N) ∧
    (∀ (ds : List Decl) (vec : ParamVec) (gs : List Group),
      processConstraints ds vec = .ok gs → findOverlap gs = none →
      (¬ ∀ g ∈ gs, feasibleStart vec g) →
      build ds vec = .error .infeasibleStartError) ∧
    (∀ (ds : List Decl) (vec : ParamVec) (gs : List Group),
      processConstraints ds vec = .ok gs → findOverlap gs = none →
      (∀ g ∈ gs, feasibleStart vec g) →
      build ds vec = .ok gs) := by
  refine ⟨length_to_external, ?_, ?_⟩
  · intro ds vec gs hp hov hinf
    rw [build, hp]
    show Except.bind (checkOverlaps vec gs) (checkFeasible vec) = _
    rw [checkOverlaps, hov]
    show checkFeasible vec gs = _
    rw [checkFeasible, if_neg hinf]
  · intro ds vec gs hp hov hfeas
    rw [build, hp]
    show Except.bind (checkOverlaps vec gs) (checkFeasible vec) = _
    rw [checkOverlaps, hov]
    show checkFeasible vec gs = _
    rw [checkFeasible, if_pos hfeas]

/-- C3 witness: a covariance group whose starting block `[[-1]]` is not
positive definite makes `build` fail with `infeasibleStartError`. -/
theorem claim_C3_witness :
    build [.real ⟨.covariance, "a", none, none, none⟩] [⟨"a", 0, -1⟩] =
      .error .infeasibleStartError := by
  apply claim_C3.2.1 [.real ⟨.covariance, "a", none, none, none⟩]
    [⟨"a", 0, -1⟩] [⟨.covariance, [0], [], 0, []⟩] rfl rfl
  intro hall
  have hfeas := hall ⟨.covariance, [0], [], 0, []⟩ (List.mem_singleton.mpr rfl)
  have hpd : (unpackSym 1 [(-1 : ℝ)]).PosDef := hfeas
  have hne : (fun _ => (1 : ℝ)) ≠ (0 : Fin 1 → ℝ) := by
    intro h
    have := congrFun h 0
    norm_num at this
  have hcon := hpd.2 (fun _ => 1) hne
  rw [show (star fun _ : Fin 1 => (1 : ℝ)) = fun _ : Fin 1 => (1 : ℝ) from rfl] at hcon
  simp only [Matrix.dotProduct, Matrix.mulVec, Fin.sum_univ_one, unpackSym,
    Matrix.of_apply] at hcon
  norm_num [idx, tri, List.getD] at hcon

/-! ### C1: every internal vector maps to a feasible external slice -/

theorem getD_eq_zero_of_le {l : List ℝ} {i : ℕ} (h : l.length ≤ i) :
    l.getD i 0 = 0 := by
  rw [List.getD_eq_getElem?_getD, List.getElem?_eq_none (by omega)]
  rfl

theorem sum_map_div (l : List ℝ) (c : ℝ) : (l.map fun x => x / c).sum = l.sum / c := by
  induction l with
  | nil => simp
  | cons a l ih => simp [ih, add_div]

theorem buildUnitLower_diag (n : ℕ) (c : List ℝ) (i : Fin n) :
    buildUnitLower n c i i = 1 := by
  rw [buildUnitLower]
  simp

theorem corrGram_diag_pos (n : ℕ) (c : List ℝ) (i : Fin n) :
    0 < (buildUnitLower n c * (buildUnitLower n c)ᵀ) i i := by
  rw [Matrix.mul_apply]
  have hterm : ∀ k : Fin n, (0 : ℝ) ≤ buildUnitLower n c i k * (buildUnitLower n c)ᵀ k i := by
    intro k
    rw [Matrix.transpose_apply]
    exact mul_self_nonneg _
  have hsingle : buildUnitLower n c i i * (buildUnitLower n c)ᵀ i i ≤
      ∑ k, buildUnitLower n c i k * (buildUnitLower n c)ᵀ k i :=
    Finset.single_le_sum (fun k _ => hterm k) (Finset.mem_univ i)
  rw [Matrix.transpose_apply, buildUnitLower_diag, mul_one] at hsingle
  linarith

theorem sdcorrCorrMatrix_diag_one (n : ℕ) (c : List ℝ) (i : Fin n) :
    sdcorrCorrMatrix n c i i = 1 := by
  rw [sdcorrCorrMatrix]
  simp only [Matrix.of_apply]
  rw [Real.mul_self_sqrt (le_of_lt (corrGram_diag_pos n c i))]
  exact div_self (ne_of_gt (corrGram_diag_pos n c i))

theorem chain_accumulate : ∀ (us : List ℝ) (p : ℝ),
    List.Chain' (· ≤ ·) (p :: accumulate p us)
  | [], p => by rw [accumulate]; simp
  | w :: ws, p => by
    rw [accumulate]
    exact List.chain'_cons.mpr
      ⟨le_add_of_nonneg_right (le_of_lt (Real.exp_pos w)),
       chain_accumulate ws (p + Real.exp w)⟩

theorem prob_sum_pos (u : List ℝ) : 0 < ((u ++ [0]).map Real.exp).sum := by
  rw [List.map_append, List.sum_append]
  have h1 : (0 : ℝ) ≤ (u.map Real.exp).sum :=
    List.sum_nonneg fun x hx => by
      obtain ⟨y, _, hy⟩ := List.mem_map.mp hx
      rw [← hy]
      exact le_of_lt (Real.exp_pos y)
  have h2 : ([(0 : ℝ)].map Real.exp).sum = 1 := by simp
  rw [h2]
  linarith

/-- C1: for every constraint type and every internal slice, `to_external`
lands in the constraint's feasible set: the covariance block is PSD, the
sdcorr block has nonnegative standard deviations and a unit-diagonal
correlation matrix, a sum block sums to its target, a probability block
lies in `[0, 1]` and sums to `1`, an increasing block is non-decreasing,
equality blocks are constant, pairwise blocks coincide, and a fixed block
equals its captured target.  (Internal bounds are vacuous: every transform
accepts the whole internal space.) -/
theorem claim_C1 :
    (∀ (n : ℕ) (u : List ℝ), (unpackSym n (to_external_covariance n u)).PosSemidef) ∧
    (∀ (n : ℕ) (u : List ℝ), n ≤ u.length → ∀ i < n,
      0 ≤ (to_external_sdcorr n u).getD i 0) ∧
    (∀ (n : ℕ) (c : List ℝ) (i : Fin n), sdcorrCorrMatrix n c i i = 1) ∧
    (∀ (t : ℝ) (u : List ℝ), (to_external_sum t u).sum = t) ∧
    (∀ (u : List ℝ), (to_external_probability u).sum = 1) ∧
    (∀ (u : List ℝ) (i : ℕ), 0 ≤ (to_external_probability u).getD i 0 ∧
      (to_external_probability u).getD i 0 ≤ 1) ∧
    (∀ (u : List ℝ), List.Chain' (· ≤ ·) (to_external_increasing u)) ∧
    (∀ (n : ℕ) (u : List ℝ), to_external_equality n u =
      List.replicate n (u.headD 0)) ∧
    (∀ (u : List ℝ), (to_external_pairwise u).1 = (to_external_pairwise u).2) ∧
    (∀ (tg u : List ℝ), to_external_fixed tg u = tg) := by
  refine ⟨?_, ?_, sdcorrCorrMatrix_diag_one, ?_, ?_, ?_, ?_,
    fun n u => rfl, fun u => rfl, fun tg u => rfl⟩
  · intro n u
    rw [to_external_covariance, unpackSym_packLower _ (by
      rw [Matrix.transpose_mul, Matrix.transpose_transpose])]
    rw [show (buildLower n u)ᵀ =
      (buildLower n u)ᴴ from (Matrix.conjTranspose_eq_transpose_of_trivial _).symm]
    exact Matrix.posSemidef_self_mul_conjTranspose _
  · intro n u hn i hi
    rw [to_external_sdcorr]
    have hlen : ((u.take n).map Real.exp).length = n := by
      rw [List.length_map, List.length_take]
      omega
    rw [List.getD_append _ _ _ _ (by omega)]
    rw [List.getD_eq_getElem?_getD, List.getElem?_map]
    have hi2 : i < (u.take n).length := by rw [List.length_take]; omega
    rw [List.getElem?_eq_getElem hi2]
    simpa using le_of_lt (Real.exp_pos _)
  · intro t u
    rw [to_external_sum, List.sum_append]
    simp
  · intro u
    rw [to_external_probability, sum_map_div]
    exact div_self (ne_of_gt (prob_sum_pos u))
  · intro u i
    rw [to_external_probability]
    by_cases hlt : i < (((u ++ [0]).map Real.exp).map fun ei =>
        ei / ((u ++ [0]).map Real.exp).sum).length
    · rw [List.getD_eq_getElem _ _ hlt]
      rw [List.getElem_map]
      have hib : i < ((u ++ [0]).map Real.exp).length := by simpa using hlt
      have hmem : ((u ++ [0]).map Real.exp)[i] ∈
          (u ++ [0]).map Real.exp := List.getElem_mem hib
      obtain ⟨y, _, hy⟩ := List.mem_map.mp hmem
      constructor
      · apply div_nonneg _ (le_of_lt (prob_sum_pos u))
        rw [← hy]
        exact le_of_lt (Real.exp_pos y)
      · rw [div_le_one (prob_sum_pos u)]
        apply List.single_le_sum _ _ hmem
        intro x hx
        obtain ⟨z, _, hz⟩ := List.mem_map.mp hx
        rw [← hz]
        exact le_of_lt (Real.exp_pos z)
    · rw [getD_eq_zero_of_le (by omega)]
      norm_num
  · intro u
    cases u with
    | nil => simp [to_external_increasing]
    | cons v us =>
      rw [to_external_increasing]
      exact chain_accumulate us v

/-- C1 witness: the sdcorr standard-deviation bound at a concrete slice. -/
theorem claim_C1_witness :
    0 ≤ (to_external_sdcorr 1 [0]).getD 0 0 :=
  claim_C1.2.1 1 [0] (by norm_num) 0 (by norm_num)

/-! ### C2: round trips -/

theorem buildLower_cholFactor {n : ℕ} {S : Matrix (Fin n) (Fin n) ℝ} (hS : S.PosDef) :
    buildLower n ((List.range (tri n)).map fun k =>
      if (rowcol k).2 = (rowcol k).1 then
        Real.log (entryAt (cholFactor hS) (rowcol k).1 (rowcol k).1)
      else entryAt (cholFactor hS) (rowcol k).1 (rowcol k).2) = cholFactor hS := by
  ext i j
  rw [buildLower]
  simp only [Matrix.of_apply]
  rcases lt_trichotomy (i : ℕ) (j : ℕ) with hlt | heq | hgt
  · rw [if_neg (by omega), if_neg (by omega)]
    exact (cholFactor_lowerTri hS i j (by exact Fin.lt_def.mpr hlt)).symm
  · rw [if_pos heq]
    rw [getD_map_range (idx_lt_tri le_rfl i.isLt), rowcol_idx le_rfl]
    rw [if_pos rfl]
    rw [entryAt, dif_pos ⟨i.isLt, i.isLt⟩]
    have hij : i = j := Fin.ext heq
    subst hij
    rw [Real.exp_log (cholFactor_diag_pos hS ⟨(i : ℕ), i.isLt⟩)]
  · rw [if_neg (by omega), if_pos hgt]
    rw [getD_map_range (idx_lt_tri (le_of_lt hgt) i.isLt), rowcol_idx (le_of_lt hgt)]
    rw [if_neg (by omega)]
    rw [entryAt, dif_pos ⟨i.isLt, j.isLt⟩]

theorem roundtrip_covariance {n : ℕ} {x : List ℝ} (hlen : x.length = tri n)
    (hpd : (unpackSym n x).PosDef) :
    to_external_covariance n (to_internal_covariance n x) = x := by
  rw [to_internal_covariance, dif_pos hpd]
  rw [to_external_covariance, buildLower_cholFactor hpd]
  rw [cholFactor_mul_transpose hpd]
  exact packLower_unpackSym x hlen

theorem packStrictLower_getD {n i j : ℕ} (M : Matrix (Fin n) (Fin n) ℝ)
    (hj : j < i) (hi : i < n) :
    (packStrictLower n M).getD (idx (i - 1) j) 0 =
      M ⟨i, hi⟩ ⟨j, lt_trans hj hi⟩ := by
  have hi1 : i - 1 < n - 1 := by omega
  have hj1 : j ≤ i - 1 := by omega
  rw [packStrictLower, getD_map_range (idx_lt_tri hj1 hi1), rowcol_idx hj1]
  rw [show (i - 1) + 1 = i from by omega]
  rw [entryAt, dif_pos ⟨hi, lt_trans hj hi⟩]

theorem length_packStrictLower (n : ℕ) (M : Matrix (Fin n) (Fin n) ℝ) :
    (packStrictLower n M).length = tri (n - 1) := by
  simp [packStrictLower]

theorem packStrictLower_unpackCorr {n : ℕ} (c : List ℝ)
    (hlen : c.length = tri (n - 1)) :
    packStrictLower n (unpackCorr n c) = c := by
  apply List.ext_getElem
  · rw [length_packStrictLower, hlen]
  · intro k h1 h2
    rw [length_packStrictLower] at h1
    have hrowlt : (rowcol k).1 < n - 1 := rowcol_row_lt h1
    have hcolle : (rowcol k).2 ≤ (rowcol k).1 := (rowcol_inv k).1
    have hr1 : (rowcol k).1 + 1 < n := by omega
    have hc1 : (rowcol k).2 < n := by omega
    have hL : (packStrictLower n (unpackCorr n c)).getD k 0 = c.getD k 0 := by
      rw [packStrictLower, getD_map_range h1]
      rw [entryAt, dif_pos ⟨hr1, hc1⟩, unpackCorr]
      simp only [Matrix.of_apply]
      rw [if_neg (by omega), if_pos (by omega)]
      rw [show (rowcol k).1 + 1 - 1 = (rowcol k).1 from by omega]
      have hk : idx (rowcol k).1 (rowcol k).2 = k := (rowcol_inv k).2
      rw [hk]
    rw [← List.getD_eq_getElem _ 0, ← List.getD_eq_getElem _ 0]
    exact hL

theorem buildUnitLower_pack {n : ℕ} {C : Matrix (Fin n) (Fin n) ℝ}
    (hC : C.PosDef) :
    buildUnitLower n (packStrictLower n
        (Matrix.of fun i j => cholFactor hC i j / cholFactor hC i i)) =
      Matrix.of fun i j => cholFactor hC i j / cholFactor hC i i := by
  ext i j
  rw [buildUnitLower]
  simp only [Matrix.of_apply]
  rcases lt_trichotomy (i : ℕ) (j : ℕ) with hlt | heq | hgt
  · rw [if_neg (by omega), if_neg (by omega)]
    rw [cholFactor_lowerTri hC i j (Fin.lt_def.mpr hlt), zero_div]
  · have hij : i = j := Fin.ext heq
    subst hij
    rw [if_pos rfl, div_self (ne_of_gt (cholFactor_diag_pos hC i))]
  · rw [if_neg (by omega), if_pos hgt]
    have := packStrictLower_getD
      (Matrix.of fun i j => cholFactor hC i j / cholFactor hC i i)
      hgt i.isLt
    rw [this]
    simp only [Matrix.of_apply]

theorem sdcorr_gram_entry {n : ℕ} {C : Matrix (Fin n) (Fin n) ℝ}
    (hC : C.PosDef) (i j : Fin n) :
    ((Matrix.of fun i j => cholFactor hC i j / cholFactor hC i i) *
      (Matrix.of fun i j => cholFactor hC i j / cholFactor hC i i)ᵀ) i j =
      C i j / (cholFactor hC i i * cholFactor hC j j) := by
  rw [Matrix.mul_apply]
  have hterm : ∀ k : Fin n,
      (Matrix.of fun i j => cholFactor hC i j / cholFactor hC i i) i k *
        (Matrix.of fun i j => cholFactor hC i j / cholFactor hC i i)ᵀ k j =
      cholFactor hC i k * cholFactor hC j k /
        (cholFactor hC i i * cholFactor hC j j) := by
    intro k
    rw [Matrix.transpose_apply]
    simp only [Matrix.of_apply]
    rw [div_mul_div_comm]
  rw [Finset.sum_congr rfl fun k _ => hterm k, ← Finset.sum_div]
  congr 1
  have := cholFactor_mul_transpose hC
  have h2 := congrFun (congrFun this i) j
  rw [Matrix.mul_apply] at h2
  simpa [Matrix.transpose_apply] using h2

theorem unpackCorr_diag (n : ℕ) (c : List ℝ) (i : Fin n) :
    unpackCorr n c i i = 1 := by
  rw [unpackCorr]
  simp

theorem roundtrip_sdcorr {n : ℕ} {x : List ℝ}
    (hlen : x.length = n + tri (n - 1))
    (hsds : ∀ s ∈ x.take n, 0 < s)
    (hpd : (unpackCorr n (x.drop n)).PosDef) :
    to_external_sdcorr n (to_internal_sdcorr n x) = x := by
  rw [to_internal_sdcorr, dif_pos hpd, to_external_sdcorr]
  have hsdslen : ((x.take n).map Real.log).length = n := by
    rw [List.length_map, List.length_take]
    omega
  rw [List.take_left' hsdslen, List.drop_left' hsdslen]
  conv_rhs => rw [← List.take_append_drop n x]
  congr 1
  · rw [List.map_map]
    have hmap : (x.take n).map (Real.exp ∘ Real.log) = (x.take n).map id :=
      List.map_congr_left fun s hs => Real.exp_log (hsds s hs)
    rw [hmap, List.map_id]
  · have hgram : ∀ i : Fin n,
        ((Matrix.of fun i j => cholFactor hpd i j / cholFactor hpd i i) *
          (Matrix.of fun i j => cholFactor hpd i j / cholFactor hpd i i)ᵀ) i i =
        1 / (cholFactor hpd i i * cholFactor hpd i i) := by
      intro i
      rw [sdcorr_gram_entry hpd i i, unpackCorr_diag]
    have hCeq : sdcorrCorrMatrix n (packStrictLower n
        (Matrix.of fun i j => cholFactor hpd i j / cholFactor hpd i i)) =
        unpackCorr n (x.drop n) := by
      ext i j
      rw [sdcorrCorrMatrix]
      simp only [Matrix.of_apply]
      rw [buildUnitLower_pack hpd]
      rw [sdcorr_gram_entry hpd i j, hgram i, hgram j]
      have hpi : 0 < cholFactor hpd i i := cholFactor_diag_pos hpd i
      have hpj : 0 < cholFactor hpd j j := cholFactor_diag_pos hpd j
      rw [show (1 : ℝ) / (cholFactor hpd i i * cholFactor hpd i i) =
        (1 / cholFactor hpd i i) ^ 2 from by field_simp; ring]
      rw [show (1 : ℝ) / (cholFactor hpd j j * cholFactor hpd j j) =
        (1 / cholFactor hpd j j) ^ 2 from by field_simp; ring]
      rw [Real.sqrt_sq (by positivity), Real.sqrt_sq (by positivity)]
      field_simp
    rw [hCeq]
    exact packStrictLower_unpackCorr _ (by rw [List.length_drop]; omega)

theorem roundtrip_equality {x : List ℝ} {c : ℝ}
    (hx : x = List.replicate x.length c) :
    to_external_equality x.length (to_internal_equality x) = x := by
  cases x with
  | nil => rfl
  | cons a l =>
    have hac : a = c := by
      rw [List.length_cons, List.replicate_succ] at hx
      injection hx
    show List.replicate (a :: l).length ((a :: l).headD 0) = a :: l
    rw [show ((a :: l).headD 0) = a from rfl]
    conv_rhs => rw [hx]
    rw [hac]

theorem accumulate_logIncrements : ∀ (vs : List ℝ) (p : ℝ),
    List.Chain' (· < ·) (p :: vs) → accumulate p (logIncrements p vs) = vs
  | [], p, _ => rfl
  | w :: ws, p, h => by
    rw [logIncrements, accumulate]
    obtain ⟨hpw, htail⟩ := List.chain'_cons.mp h
    rw [Real.exp_log (by linarith : (0 : ℝ) < w - p)]
    rw [show p + (w - p) = w from by ring]
    rw [accumulate_logIncrements ws w htail]

theorem roundtrip_increasing {v : List ℝ} (hmono : List.Chain' (· < ·) v) :
    to_external_increasing (to_internal_increasing v) = v := by
  cases v with
  | nil => rfl
  | cons a vs =>
    rw [to_internal_increasing, to_external_increasing,
      accumulate_logIncrements vs a hmono]

theorem roundtrip_sum {t : ℝ} {x : List ℝ} (hne : x ≠ []) (hsum : x.sum = t) :
    to_external_sum t (to_internal_sum x) = x := by
  rw [to_internal_sum, to_external_sum]
  have hx := List.dropLast_append_getLast hne
  have hsplit : x.sum = x.dropLast.sum + x.getLast hne := by
    conv_lhs => rw [← hx]
    rw [List.sum_append]
    simp
  conv_rhs => rw [← hx]
  congr 1
  simp only [List.cons.injEq, and_true]
  linarith

theorem map_dropLast_append (f : ℝ → ℝ) (x : List ℝ) (hne : x ≠ []) :
    x.map f = x.dropLast.map f ++ [f (x.getLast hne)] := by
  conv_lhs => rw [← List.dropLast_append_getLast hne]
  rw [List.map_append]
  rfl

theorem getLastD_pos_ne_nil {x : List ℝ} (hne : x ≠ []) :
    x.getLastD 1 = x.getLast hne := by
  cases x with
  | nil => exact absurd rfl hne
  | cons a l => simp [List.getLastD_eq_getLast?, List.getLast?_eq_getLast _ hne]

theorem roundtrip_probability {x : List ℝ} (hpos : ∀ y ∈ x, 0 < y)
    (hsum : x.sum = 1) :
    to_external_probability (to_internal_probability x) = x := by
  have hne : x ≠ [] := by
    intro h
    rw [h] at hsum
    simp at hsum
  have hLpos : 0 < x.getLast hne := hpos _ (List.getLast_mem hne)
  rw [to_internal_probability, to_external_probability, getLastD_pos_ne_nil hne]
  have hmape : ((x.dropLast.map fun xi => Real.log (xi / x.getLast hne)) ++ [0]).map
      Real.exp = x.map fun xi => xi / x.getLast hne := by
    rw [List.map_append, List.map_map]
    have h1 : x.dropLast.map (Real.exp ∘ fun xi => Real.log (xi / x.getLast hne)) =
        x.dropLast.map fun xi => xi / x.getLast hne := by
      apply List.map_congr_left
      intro a ha
      have hapos : 0 < a := hpos a (List.dropLast_subset x ha)
      exact Real.exp_log (div_pos hapos hLpos)
    rw [h1, map_dropLast_append (fun xi => xi / x.getLast hne) x hne]
    congr 1
    simp [Real.exp_zero, div_self (ne_of_gt hLpos)]
  rw [hmape, sum_map_div, hsum]
  rw [List.map_map]
  have h2 : x.map ((fun ei => ei / (1 / x.getLast hne)) ∘
      fun xi => xi / x.getLast hne) = x.map id := by
    apply List.map_congr_left
    intro a _
    show a / x.getLast hne / (1 / x.getLast hne) = a
    field_simp
  rw [h2, List.map_id]

/-- C2 counterexample: the probability slice `[1, 0]` satisfies the
probability predicate (entries in `[0, 1]` summing to `1`) but cannot be
round-tripped: the reference (last) share is `0`, the log-ratio transform
degenerates, and `to_external (to_internal [1, 0])` returns
`[1/2, 1/2]`, off by `1/2` — far beyond the `1e-8` tolerance. -/
theorem claim_C2_counterexample :
    ((0 : ℝ) ≤ 1 ∧ (1 : ℝ) ≤ 1 ∧ (0 : ℝ) ≤ 0 ∧ (0 : ℝ) ≤ 1 ∧
      (1 : ℝ) + 0 = 1) ∧
    to_external_probability (to_internal_probability [1, 0]) = [1 / 2, 1 / 2] ∧
    ¬ |(to_external_probability (to_internal_probability [1, 0])).getD 0 0 - 1| ≤
      1e-8 := by
  have heval : to_external_probability (to_internal_probability [1, 0]) =
      [1 / 2, 1 / 2] := by
    rw [to_internal_probability, to_external_probability]
    norm_num [Real.log_zero, Real.exp_zero, List.getLastD]
  refine ⟨by norm_num, heval, ?_⟩
  rw [heval]
  rw [show (([1 / 2, 1 / 2] : List ℝ).getD 0 0) = 1 / 2 from rfl]
  rw [show (1 : ℝ) / 2 - 1 = -(1 / 2) from by norm_num, abs_neg,
    abs_of_pos (by norm_num : (0 : ℝ) < 1 / 2)]
  norm_num

/-- C2 (amended): for every constraint type, `to_internal` followed by
`to_external` reproduces every external slice lying strictly inside the
feasible region: a fixed slice equal to its target, a constant equality
slice, coinciding pairwise slices, a strictly increasing slice, a nonempty
slice with the required sum, a probability slice with strictly positive
shares, a positive definite covariance block, and an sdcorr block with
positive standard deviations and positive definite correlation matrix; in
particular the probability shares `[0.2, 0.3, 0.5]` are reproduced
exactly (so certainly within `1e-8`). -/
theorem claim_C2 :
    (∀ (tg x : List ℝ), x = tg → to_external_fixed tg (to_internal_fixed x) = x) ∧
    (∀ (x : List ℝ) (c : ℝ), x = List.replicate x.length c →
      to_external_equality x.length (to_internal_equality x) = x) ∧
    (∀ (x1 x2 : List ℝ), x1 = x2 →
      to_external_pairwise (to_internal_pairwise x1 x2) = (x1, x2)) ∧
    (∀ (v : List ℝ), List.Chain' (· < ·) v →
      to_external_increasing (to_internal_increasing v) = v) ∧
    (∀ (t : ℝ) (x : List ℝ), x ≠ [] → x.sum = t →
      to_external_sum t (to_internal_sum x) = x) ∧
    (∀ (x : List ℝ), (∀ y ∈ x, 0 < y) → x.sum = 1 →
      to_external_probability (to_internal_probability x) = x) ∧
    (∀ (n : ℕ) (x : List ℝ), x.length = tri n → (unpackSym n x).PosDef →
      to_external_covariance n (to_internal_covariance n x) = x) ∧
    (∀ (n : ℕ) (x : List ℝ), x.length = n + tri (n - 1) →
      (∀ s ∈ x.take n, 0 < s) → (unpackCorr n (x.drop n)).PosDef →
      to_external_sdcorr n (to_internal_sdcorr n x) = x) ∧
    to_external_probability (to_internal_probability [0.2, 0.3, 0.5]) =
      [0.2, 0.3, 0.5] := by
  refine ⟨?_, fun x c hx => roundtrip_equality hx, ?_,
    fun v h => roundtrip_increasing h, fun t x hne hs => roundtrip_sum hne hs,
    fun x hp hs => roundtrip_probability hp hs,
    fun n x hl hpd => roundtrip_covariance hl hpd,
    fun n x hl hs hpd => roundtrip_sdcorr hl hs hpd, ?_⟩
  · intro tg x h
    subst h
    rfl
  · intro x1 x2 h
    rw [to_internal_pairwise, to_external_pairwise, h]
  · exact roundtrip_probability
      (by intro y hy; fin_cases hy <;> norm_num) (by norm_num)

/-- C2 witness: the round trip applied at the claim's probability scenario
`[0.2, 0.3, 0.5]` (exactly, hence within `1e-8`) and at a `1 × 1`
positive definite covariance block. -/
theorem claim_C2_witness :
    to_external_probability (to_internal_probability [0.2, 0.3, 0.5]) =
      [0.2, 0.3, 0.5] ∧
    |(to_external_probability (to_internal_probability [0.2, 0.3, 0.5])).getD 0 0
      - 0.2| ≤ 1e-8 ∧
    to_external_covariance 1 (to_internal_covariance 1 [4]) = [4] := by
  have hprob := claim_C2.2.2.2.2.2.1 [0.2, 0.3, 0.5]
    (by intro y hy; fin_cases hy <;> norm_num) (by norm_num)
  refine ⟨hprob, ?_, ?_⟩
  · rw [hprob]
    rw [show (([0.2, 0.3, 0.5] : List ℝ).getD 0 0) = 0.2 from rfl]
    norm_num
  · apply claim_C2.2.2.2.2.2.2.1 1 [4] (by decide)
    constructor
    · ext i j
      fin_cases i
      fin_cases j
      simp [Matrix.conjTranspose_apply, star_trivial]
    · intro y hy
      have hy0 : y 0 ≠ 0 := by
        intro h0
        apply hy
        funext i
        rw [Subsingleton.elim i 0, h0]
        rfl
      have hdot : Matrix.dotProduct (star y) ((unpackSym 1 [4]) *ᵥ y) =
          y 0 * (4 * y 0) := by
        simp [Matrix.dotProduct, Matrix.mulVec, Fin.sum_univ_one, unpackSym,
          idx, tri, List.getD, star_trivial]
      rw [hdot]
      nlinarith [mul_self_pos.mpr hy0]

end

end Estimagic
